import Mathlib

/-!
Verification of the nodeseek-bot content pipeline against its design spec.

Each definition is a shallow embedding of a function from the repository
(file and symbol named in its doc comment).  Scores that the Python code
holds as `float` are modelled as exact rationals (`ℚ`); strings are
modelled as `List Char`; Python's `float("inf")` sentinel for the adaptive
threshold is modelled as `Option ℚ` with `none` standing for `+∞`.
-/

namespace NodeseekBot

/-! ## Adaptive threshold (`jobs/pipeline.py`, `_compute_best_threshold`) -/

/-- A labeled score: `(score_total, y)` with `y = 1` for a `useful` label. -/
abbrev LabeledScore := ℚ × ℕ

/-- Number of positive (`y = 1`) labels, as counted by
`sum(1 for _, y in labeled_sorted if int(y) == 1)`. -/
def countPos (l : List LabeledScore) : ℕ :=
  l.countP (fun p => decide (p.2 = 1))

/-- `f1 = (2 * tp / denom) if denom > 0 else 0.0` with
`denom = 2 * tp + fp + fn` (pipeline.py lines 293-295). -/
def f1Score (tp fp fn : ℤ) : ℚ :=
  let denom := 2 * tp + fp + fn
  if 0 < denom then (2 * tp : ℚ) / (denom : ℚ) else 0

/-- The sweep loop of `_compute_best_threshold` (pipeline.py lines 280-299):
each outer iteration consumes the whole run of items tied at the head score
(the inner `while` loop), updates `tp`/`fp`, recomputes F1 and keeps the
cutoff with the strictly highest F1 seen so far. -/
def sweep (totalPos : ℕ) : List LabeledScore → ℕ → ℕ → ℚ → ℚ → ℚ
  | [], _, _, _, best => best
  | (s, y) :: tl, tp, fp, bestF1, best =>
    let run := tl.takeWhile (fun p => decide (p.1 = s))
    let rest := tl.dropWhile (fun p => decide (p.1 = s))
    let bp := countPos ((s, y) :: run)
    let blen := ((s, y) :: run).length
    let tp2 := tp + bp
    let fp2 := fp + (blen - bp)
    let f1 := f1Score (tp2 : ℤ) (fp2 : ℤ) ((totalPos : ℤ) - (tp2 : ℤ))
    if bestF1 < f1 then sweep totalPos rest tp2 fp2 f1 s
    else sweep totalPos rest tp2 fp2 bestF1 best
termination_by l => l.length
decreasing_by
  all_goals
    simp only [List.length_cons]
    have := (List.dropWhile_sublist (l := tl) (p := fun p => decide (p.1 = s))).length_le
    omega

/-- `_compute_best_threshold` (pipeline.py lines 257-301).  Returns `none`
for Python's `float("inf")`.  The list is sorted descending by score; with
no labels or no positive labels the threshold is unbounded; with only
positive labels it is the last (lowest) sorted score; otherwise the sweep
runs with `best_f1 = -1.0` and `best_threshold` = the first (highest)
score. -/
def computeBestThreshold (labeled : List LabeledScore) : Option ℚ :=
  match labeled with
  | [] => none
  | _ :: _ =>
    let sorted := labeled.mergeSort (fun a b => decide (b.1 ≤ a.1))
    let totalPos := countPos sorted
    let total := sorted.length
    if totalPos = 0 then none
    else if total ≤ totalPos then some (((sorted.getLast?).getD (0, 0)).1)
    else some (sweep totalPos sorted 0 0 (-1) ((sorted.head?.getD (0, 0)).1))

/-- `_MIN_LABELS_TO_AUTOFILTER` (pipeline.py line 29). -/
def MIN_LABELS_TO_AUTOFILTER : ℕ := 10000

/-- `_should_deliver` (pipeline.py lines 304-321).  `nLabels` models
`storage.count_labels()` and `labeledScores` models
`storage.get_labeled_scores(limit=_MIN_LABELS_TO_AUTOFILTER)`. -/
def shouldDeliver (nLabels : ℕ) (labeledScores : List LabeledScore)
    (scoreTotal : ℚ) (decision : String) : Bool :=
  if decision = "BLACKLIST" then false
  else if nLabels < MIN_LABELS_TO_AUTOFILTER then true
  else
    match computeBestThreshold labeledScores with
    | none => false
    | some threshold =>
      if decision = "WHITELIST" then true
      else decide (threshold ≤ scoreTotal)

/-- Scores appearing in a labeled list. -/
def scoresOf (l : List LabeledScore) : List ℚ := l.map Prod.fst

/-- F1 of the cutoff `c` against the labeled list `l`: predicted positive
iff score ≥ c (a cutoff keeps whole score-batches together by
construction, since selection depends only on the score value). -/
def f1At (l : List LabeledScore) (c : ℚ) : ℚ :=
  f1Score (countPos (l.filter (fun p => decide (c ≤ p.1))) : ℤ)
    ((l.filter (fun p => decide (c ≤ p.1))).length -
      (countPos (l.filter (fun p => decide (c ≤ p.1))) : ℤ))
    ((countPos l : ℤ) - (countPos (l.filter (fun p => decide (c ≤ p.1))) : ℤ))

theorem f1At_nonneg (l : List LabeledScore) (c : ℚ) : 0 ≤ f1At l c := by
  unfold f1At f1Score
  dsimp only
  split
  · apply div_nonneg
    · positivity
    · next h => exact_mod_cast le_of_lt h
  · exact le_refl 0

/-- Descending order by score, the order produced by
`sorted(labeled, key=..., reverse=True)`. -/
abbrev ScoreDesc (a b : LabeledScore) : Prop := b.1 ≤ a.1

theorem sorted_mergeSortDesc (l : List LabeledScore) :
    List.Sorted ScoreDesc (l.mergeSort (fun a b => decide (b.1 ≤ a.1))) := by
  have h := @List.sorted_mergeSort _ (fun a b : LabeledScore => decide (b.1 ≤ a.1))
    (fun a b c hab hbc => by
      simp only [decide_eq_true_eq] at *; exact le_trans hbc hab)
    (fun a b => by
      simp only [Bool.or_eq_true, decide_eq_true_eq]; exact le_total b.1 a.1) l
  exact h.imp (fun hab => of_decide_eq_true hab)

theorem f1At_perm {l₁ l₂ : List LabeledScore} (h : l₁.Perm l₂) (c : ℚ) :
    f1At l₁ c = f1At l₂ c := by
  have hf := h.filter (fun p => decide (c ≤ p.1))
  unfold f1At
  rw [countPos, countPos, countPos, countPos, hf.countP_eq, hf.length_eq, h.countP_eq]

theorem countPos_le_length (l : List LabeledScore) : countPos l ≤ l.length :=
  List.countP_le_length _

theorem countPos_append (a b : List LabeledScore) :
    countPos (a ++ b) = countPos a + countPos b :=
  List.countP_append _ _ _

/-- In a descending-sorted list whose entries are all `≤ s`, everything
surviving `dropWhile (score = s)` has score strictly below `s`. -/
theorem score_lt_of_mem_dropWhile {s : ℚ} :
    ∀ {tl : List LabeledScore}, List.Sorted ScoreDesc tl →
      (∀ x ∈ tl, x.1 ≤ s) →
      ∀ b ∈ tl.dropWhile (fun p => decide (p.1 = s)), b.1 < s
  | [], _, _, b, hb => by simp at hb
  | x :: xs, hsort, hle, b, hb => by
    rw [List.dropWhile_cons] at hb
    rw [List.sorted_cons] at hsort
    by_cases hx : x.1 = s
    · simp only [hx, decide_True] at hb
      exact score_lt_of_mem_dropWhile hsort.2
        (fun y hy => le_trans (hsort.1 y hy) (le_of_eq hx)) b hb
    · simp only [decide_eq_true_eq, hx, if_false] at hb
      have hxlt : x.1 < s := lt_of_le_of_ne (hle x (by simp)) hx
      rcases List.mem_cons.mp hb with h | h
      · exact h ▸ hxlt
      · exact lt_of_le_of_lt (hsort.1 b h) hxlt

/-- In a nonempty descending-sorted list the last element carries the
minimum score. -/
theorem getLast_score_min :
    ∀ {l : List LabeledScore}, List.Sorted ScoreDesc l → l ≠ [] →
      ∃ m, l.getLast? = some m ∧ m ∈ l ∧ ∀ a ∈ l, m.1 ≤ a.1
  | [], _, hne => absurd rfl hne
  | [x], _, _ => ⟨x, rfl, by simp, by simp⟩
  | x :: y :: xs, hsort, _ => by
    rw [List.sorted_cons] at hsort
    obtain ⟨m, hm1, hm2, hm3⟩ := getLast_score_min hsort.2 (by simp)
    refine ⟨m, ?_, List.mem_cons_of_mem _ hm2, ?_⟩
    · rw [List.getLast?_cons_cons]; exact hm1
    · intro a ha
      rcases List.mem_cons.mp ha with h | h
      · exact h ▸ le_trans (hsort.1 m hm2) (le_refl _)
      · exact hm3 a h

/-- Invariant-carrying specification of the sweep loop: run on the suffix
`l` of the sorted list `L` with `tp`/`fp` counted from the consumed prefix
`P`, it returns either the incoming champion (when no cutoff in `l`
strictly beats `bF1`) or the first — hence highest — cutoff in `l` that
strictly improves on `bF1` and is never strictly beaten afterwards. -/
theorem sweep_spec :
    ∀ (n : ℕ) (L l P : List LabeledScore) (tp fp : ℕ) (bF1 best : ℚ),
      l.length ≤ n →
      List.Sorted ScoreDesc L →
      L = P ++ l →
      tp = countPos P →
      fp = P.length - countPos P →
      (∀ a ∈ P, ∀ b ∈ l, b.1 < a.1) →
      (sweep (countPos L) l tp fp bF1 best = best ∧
        ∀ s ∈ scoresOf l, f1At L s ≤ bF1) ∨
      (∃ out, sweep (countPos L) l tp fp bF1 best = out ∧
        out ∈ scoresOf l ∧ bF1 < f1At L out ∧
        (∀ s ∈ scoresOf l, f1At L s ≤ f1At L out) ∧
        (∀ s ∈ scoresOf l, f1At L out ≤ f1At L s → s ≤ out)) := by
  intro n
  induction n with
  | zero =>
    intro L l P tp fp bF1 best hlen _ _ _ _ _
    rw [Nat.le_zero, List.length_eq_zero] at hlen
    subst hlen
    exact Or.inl ⟨by simp [sweep], by simp [scoresOf]⟩
  | succ n ih =>
    rintro L l P tp fp bF1 best hlen hsorted hL htp hfp hdom
    match l with
    | [] => exact Or.inl ⟨by simp [sweep], by simp [scoresOf]⟩
    | (s, y) :: tl =>
      -- Batch decomposition of the head run
      have htl : tl.takeWhile (fun q => decide (q.1 = s)) ++
          tl.dropWhile (fun q => decide (q.1 = s)) = tl :=
        List.takeWhile_append_dropWhile _ _
      have hsl : List.Sorted ScoreDesc ((s, y) :: tl) :=
        ((List.pairwise_append.mp (hL ▸ hsorted)).2).1
      have hhead : ∀ b ∈ tl, b.1 ≤ s := (List.sorted_cons.mp hsl).1
      have hstl : List.Sorted ScoreDesc tl := (List.sorted_cons.mp hsl).2
      have hrest_lt : ∀ b ∈ tl.dropWhile (fun q => decide (q.1 = s)), b.1 < s :=
        score_lt_of_mem_dropWhile hstl hhead
      have hrun_eq : ∀ p ∈ tl.takeWhile (fun q => decide (q.1 = s)), p.1 = s := by
        intro p hp
        simpa using List.mem_takeWhile_imp hp
      have hbatch_eq : ∀ p ∈ (s, y) :: tl.takeWhile (fun q => decide (q.1 = s)), p.1 = s := by
        intro p hp
        rcases List.mem_cons.mp hp with h | h
        · rw [h]
        · exact hrun_eq p h
      have hrest_sub : (tl.dropWhile (fun q => decide (q.1 = s))) ⊆ tl :=
        (List.dropWhile_sublist _).subset
      have hLsplit : L = (P ++ ((s, y) :: tl.takeWhile (fun q => decide (q.1 = s)))) ++
          tl.dropWhile (fun q => decide (q.1 = s)) := by
        rw [hL, List.append_assoc, List.cons_append, htl]
      -- The filter at cutoff s is exactly prefix ++ batch
      have hfilt : L.filter (fun q => decide (s ≤ q.1)) =
          P ++ ((s, y) :: tl.takeWhile (fun q => decide (q.1 = s))) := by
        rw [hLsplit, List.filter_append, List.filter_append]
        have h1 : P.filter (fun q => decide (s ≤ q.1)) = P :=
          List.filter_eq_self.mpr fun a ha =>
            decide_eq_true (le_of_lt (hdom a ha (s, y) (List.mem_cons_self _ _)))
        have h2 : ((s, y) :: tl.takeWhile (fun q => decide (q.1 = s))).filter
            (fun q => decide (s ≤ q.1)) =
            (s, y) :: tl.takeWhile (fun q => decide (q.1 = s)) :=
          List.filter_eq_self.mpr fun a ha =>
            decide_eq_true (le_of_eq (hbatch_eq a ha).symm)
        have h3 : (tl.dropWhile (fun q => decide (q.1 = s))).filter
            (fun q => decide (s ≤ q.1)) = [] :=
          List.filter_eq_nil_iff.mpr fun a ha =>
            by simpa using not_le_of_lt (hrest_lt a ha)
        rw [h1, h2, h3, List.append_nil]
      -- F1 at cutoff s equals the accumulator-computed F1 of this batch
      have htp2 : countPos (L.filter (fun q => decide (s ≤ q.1))) =
          tp + countPos ((s, y) :: tl.takeWhile (fun q => decide (q.1 = s))) := by
        rw [hfilt, countPos, List.countP_append, htp]; rfl
      have hc1 : countPos P ≤ P.length := countPos_le_length P
      have hc2 : countPos ((s, y) :: tl.takeWhile (fun q => decide (q.1 = s))) ≤
          ((s, y) :: tl.takeWhile (fun q => decide (q.1 = s))).length :=
        countPos_le_length _
      have hlenf : (L.filter (fun q => decide (s ≤ q.1))).length =
          P.length + ((s, y) :: tl.takeWhile (fun q => decide (q.1 = s))).length := by
        rw [hfilt, List.length_append]
      have harg2 : ((L.filter (fun q => decide (s ≤ q.1))).length : ℤ) -
          (↑(tp + countPos ((s, y) :: tl.takeWhile (fun q => decide (q.1 = s)))) : ℤ) =
          (↑(fp + (((s, y) :: tl.takeWhile (fun q => decide (q.1 = s))).length -
            countPos ((s, y) :: tl.takeWhile (fun q => decide (q.1 = s))))) : ℤ) := by
        rw [hlenf, htp, hfp]
        push_cast [Nat.cast_sub hc1, Nat.cast_sub hc2]
        ring
      have hf1s : f1At L s =
          f1Score (↑(tp + countPos ((s, y) :: tl.takeWhile (fun q => decide (q.1 = s)))))
            (↑(fp + (((s, y) :: tl.takeWhile (fun q => decide (q.1 = s))).length -
              countPos ((s, y) :: tl.takeWhile (fun q => decide (q.1 = s))))))
            (↑(countPos L) -
              ↑(tp + countPos ((s, y) :: tl.takeWhile (fun q => decide (q.1 = s))))) := by
        unfold f1At
        rw [htp2, harg2]
      -- One unfolding step of the loop, with the batch F1 named f1At L s
      have hstep : sweep (countPos L) ((s, y) :: tl) tp fp bF1 best =
          if bF1 < f1At L s then
            sweep (countPos L) (tl.dropWhile (fun q => decide (q.1 = s)))
              (tp + countPos ((s, y) :: tl.takeWhile (fun q => decide (q.1 = s))))
              (fp + (((s, y) :: tl.takeWhile (fun q => decide (q.1 = s))).length -
                countPos ((s, y) :: tl.takeWhile (fun q => decide (q.1 = s)))))
              (f1At L s) s
          else
            sweep (countPos L) (tl.dropWhile (fun q => decide (q.1 = s)))
              (tp + countPos ((s, y) :: tl.takeWhile (fun q => decide (q.1 = s))))
              (fp + (((s, y) :: tl.takeWhile (fun q => decide (q.1 = s))).length -
                countPos ((s, y) :: tl.takeWhile (fun q => decide (q.1 = s)))))
              bF1 best := by
        rw [hf1s]
        simp only [sweep]
      -- Membership bookkeeping for the score multiset
      have hrest_scores_lt : ∀ s' ∈ scoresOf (tl.dropWhile (fun q => decide (q.1 = s))),
          s' < s := by
        intro s' h
        obtain ⟨p, hp, rfl⟩ := List.mem_map.mp h
        exact hrest_lt p hp
      have hmemcases : ∀ s' ∈ scoresOf ((s, y) :: tl),
          s' = s ∨ s' ∈ scoresOf (tl.dropWhile (fun q => decide (q.1 = s))) := by
        intro s' h
        obtain ⟨p, hp, rfl⟩ := List.mem_map.mp h
        rcases List.mem_cons.mp hp with h1 | h1
        · exact Or.inl (by rw [h1])
        · rw [← htl] at h1
          rcases List.mem_append.mp h1 with h2 | h2
          · exact Or.inl (hrun_eq p h2)
          · exact Or.inr (List.mem_map.mpr ⟨p, h2, rfl⟩)
      have hrest_mem_sub : ∀ s' ∈ scoresOf (tl.dropWhile (fun q => decide (q.1 = s))),
          s' ∈ scoresOf ((s, y) :: tl) := by
        intro s' h
        obtain ⟨p, hp, rfl⟩ := List.mem_map.mp h
        exact List.mem_map.mpr ⟨p, List.mem_cons_of_mem _ (hrest_sub hp), rfl⟩
      have hs_mem : s ∈ scoresOf ((s, y) :: tl) := by simp [scoresOf]
      -- Invariants for the recursive call on the remainder
      have hP'tp : tp + countPos ((s, y) :: tl.takeWhile (fun q => decide (q.1 = s))) =
          countPos (P ++ ((s, y) :: tl.takeWhile (fun q => decide (q.1 = s)))) := by
        rw [countPos_append, htp]
      have hP'fp : fp + (((s, y) :: tl.takeWhile (fun q => decide (q.1 = s))).length -
          countPos ((s, y) :: tl.takeWhile (fun q => decide (q.1 = s)))) =
          (P ++ ((s, y) :: tl.takeWhile (fun q => decide (q.1 = s)))).length -
          countPos (P ++ ((s, y) :: tl.takeWhile (fun q => decide (q.1 = s)))) := by
        rw [hfp, List.length_append, ← hP'tp]
        omega
      have hdom' : ∀ a ∈ P ++ ((s, y) :: tl.takeWhile (fun q => decide (q.1 = s))),
          ∀ b ∈ tl.dropWhile (fun q => decide (q.1 = s)), b.1 < a.1 := by
        intro a ha b hb
        rcases List.mem_append.mp ha with h1 | h1
        · exact hdom a h1 b (List.mem_cons_of_mem _ (hrest_sub hb))
        · rw [hbatch_eq a h1]
          exact hrest_lt b hb
      have hlen' : (tl.dropWhile (fun q => decide (q.1 = s))).length ≤ n := by
        have h1 := (List.dropWhile_sublist (l := tl)
          (p := fun q => decide (q.1 = s))).length_le
        simp only [List.length_cons] at hlen
        omega
      rw [hstep]
      by_cases hc : bF1 < f1At L s
      · rw [if_pos hc]
        rcases ih L (tl.dropWhile (fun q => decide (q.1 = s)))
            (P ++ ((s, y) :: tl.takeWhile (fun q => decide (q.1 = s))))
            (tp + countPos ((s, y) :: tl.takeWhile (fun q => decide (q.1 = s))))
            (fp + (((s, y) :: tl.takeWhile (fun q => decide (q.1 = s))).length -
              countPos ((s, y) :: tl.takeWhile (fun q => decide (q.1 = s)))))
            (f1At L s) s hlen' hsorted hLsplit hP'tp hP'fp hdom' with
          ⟨heq, hall⟩ | ⟨out, heq, hmem, hlt, hmax, htie⟩
        · refine Or.inr ⟨s, heq, hs_mem, hc, ?_, ?_⟩
          · intro s' hs'
            rcases hmemcases s' hs' with rfl | hr
            · exact le_refl _
            · exact hall s' hr
          · intro s' hs' _
            rcases hmemcases s' hs' with rfl | hr
            · exact le_refl _
            · exact le_of_lt (hrest_scores_lt s' hr)
        · refine Or.inr ⟨out, heq, hrest_mem_sub out hmem, lt_trans hc hlt, ?_, ?_⟩
          · intro s' hs'
            rcases hmemcases s' hs' with rfl | hr
            · exact le_of_lt hlt
            · exact hmax s' hr
          · intro s' hs' hge
            rcases hmemcases s' hs' with rfl | hr
            · exact absurd hge (not_le_of_lt hlt)
            · exact htie s' hr hge
      · rw [if_neg hc]
        have hc' : f1At L s ≤ bF1 := not_lt.mp hc
        rcases ih L (tl.dropWhile (fun q => decide (q.1 = s)))
            (P ++ ((s, y) :: tl.takeWhile (fun q => decide (q.1 = s))))
            (tp + countPos ((s, y) :: tl.takeWhile (fun q => decide (q.1 = s))))
            (fp + (((s, y) :: tl.takeWhile (fun q => decide (q.1 = s))).length -
              countPos ((s, y) :: tl.takeWhile (fun q => decide (q.1 = s)))))
            bF1 best hlen' hsorted hLsplit hP'tp hP'fp hdom' with
          ⟨heq, hall⟩ | ⟨out, heq, hmem, hlt, hmax, htie⟩
        · refine Or.inl ⟨heq, ?_⟩
          intro s' hs'
          rcases hmemcases s' hs' with rfl | hr
          · exact hc'
          · exact hall s' hr
        · refine Or.inr ⟨out, heq, hrest_mem_sub out hmem, hlt, ?_, ?_⟩
          · intro s' hs'
            rcases hmemcases s' hs' with rfl | hr
            · exact le_trans hc' (le_of_lt hlt)
            · exact hmax s' hr
          · intro s' hs' hge
            rcases hmemcases s' hs' with rfl | hr
            · exact absurd (le_trans hge hc') (not_le_of_lt hlt)
            · exact htie s' hr hge

/-- C2: `_compute_best_threshold` returns `+∞` (modelled `none`) when the
label list is empty or has no positive label; the lowest observed score
when every label is positive; and otherwise an observed score cutoff that
maximizes F1 against the useful label — cutoffs are score values, so items
tied at one score always move together — with F1 ties broken toward the
first (highest) cutoff of the descending sweep.  On the labels
`[(10,1),(8,1),(8,0),(5,0)]` the returned threshold is `8`, the
F1-maximizing cutoff with the tie at score 8 treated as one batch. -/
theorem c2_computeBestThreshold_spec (labeled : List LabeledScore) :
    (countPos labeled = 0 → computeBestThreshold labeled = none) ∧
    (labeled ≠ [] → countPos labeled = labeled.length →
      ∃ m, computeBestThreshold labeled = some m ∧ m ∈ scoresOf labeled ∧
        ∀ s ∈ scoresOf labeled, m ≤ s) ∧
    (0 < countPos labeled → countPos labeled < labeled.length →
      ∃ t, computeBestThreshold labeled = some t ∧ t ∈ scoresOf labeled ∧
        (∀ s ∈ scoresOf labeled, f1At labeled s ≤ f1At labeled t) ∧
        (∀ s ∈ scoresOf labeled, f1At labeled t ≤ f1At labeled s → s ≤ t)) ∧
    computeBestThreshold [(10, 1), (8, 1), (8, 0), (5, 0)] = some 8 := by
  have hperm : (labeled.mergeSort (fun a b => decide (b.1 ≤ a.1))).Perm labeled :=
    List.mergeSort_perm labeled _
  have hsorted := sorted_mergeSortDesc labeled
  have hcount : countPos (labeled.mergeSort (fun a b => decide (b.1 ≤ a.1))) =
      countPos labeled := hperm.countP_eq _
  have hlen : (labeled.mergeSort (fun a b => decide (b.1 ≤ a.1))).length =
      labeled.length := hperm.length_eq
  have hmemsc : ∀ c : ℚ,
      c ∈ scoresOf (labeled.mergeSort (fun a b => decide (b.1 ≤ a.1))) ↔
      c ∈ scoresOf labeled := fun c => (hperm.map Prod.fst).mem_iff
  have hf1eq : ∀ c : ℚ,
      f1At (labeled.mergeSort (fun a b => decide (b.1 ≤ a.1))) c =
      f1At labeled c := fun c => f1At_perm hperm c
  refine ⟨?_, ?_, ?_, ?_⟩
  · -- no positive labels (including the empty list) ⇒ unbounded threshold
    intro h0
    match labeled, hcount with
    | [], _ => rfl
    | x :: xs, hcount =>
      show computeBestThreshold (x :: xs) = none
      simp only [computeBestThreshold]
      rw [if_pos (by rw [hcount]; exact h0)]
  · -- all labels positive ⇒ the minimum observed score
    intro hne hall
    match labeled, hperm, hsorted, hcount, hlen, hmemsc, hall with
    | x :: xs, hperm, hsorted, hcount, hlen, hmemsc, hall =>
      have hLne : (x :: xs).mergeSort (fun a b => decide (b.1 ≤ a.1)) ≠ [] := by
        intro h
        rw [h] at hlen
        simp at hlen
      obtain ⟨m, hm1, hm2, hm3⟩ := getLast_score_min hsorted hLne
      refine ⟨m.1, ?_, ?_, ?_⟩
      · show computeBestThreshold (x :: xs) = some m.1
        simp only [computeBestThreshold]
        rw [if_neg (by rw [hcount, hall]; simp), if_pos (by rw [hcount, hall, hlen]),
          hm1]
        rfl
      · exact (hmemsc m.1).mp (List.mem_map.mpr ⟨m, hm2, rfl⟩)
      · intro s hs
        obtain ⟨p, hp, rfl⟩ := List.mem_map.mp ((hmemsc s).mpr hs)
        exact hm3 p hp
  · -- mixed labels ⇒ sweep returns an F1-maximizing cutoff
    intro hpos hlt
    match labeled, hperm, hsorted, hcount, hlen, hmemsc, hf1eq, hpos, hlt with
    | x :: xs, hperm, hsorted, hcount, hlen, hmemsc, hf1eq, hpos, hlt =>
      rcases sweep_spec ((x :: xs).mergeSort (fun a b => decide (b.1 ≤ a.1))).length
          ((x :: xs).mergeSort (fun a b => decide (b.1 ≤ a.1)))
          ((x :: xs).mergeSort (fun a b => decide (b.1 ≤ a.1))) [] 0 0 (-1)
          (((((x :: xs).mergeSort (fun a b => decide (b.1 ≤ a.1))).head?).getD (0, 0)).1)
          (le_refl _) hsorted (List.nil_append _).symm rfl rfl
          (by intro a ha; exact absurd ha (List.not_mem_nil a)) with
        ⟨heq, hall⟩ | ⟨out, heq, hmem, hltf, hmax, htie⟩
      · -- impossible: every F1 is ≥ 0 > -1 and the sorted list is nonempty
        exfalso
        have hLne : ((x :: xs).mergeSort (fun a b => decide (b.1 ≤ a.1))) ≠ [] := by
          intro h
          rw [h] at hlen
          simp at hlen
        obtain ⟨z, zs, hzs⟩ := List.exists_cons_of_ne_nil hLne
        have hz : z.1 ∈ scoresOf ((x :: xs).mergeSort (fun a b => decide (b.1 ≤ a.1))) := by
          rw [hzs]
          simp [scoresOf]
        have := hall z.1 hz
        have h0 := f1At_nonneg ((x :: xs).mergeSort (fun a b => decide (b.1 ≤ a.1))) z.1
        linarith
      · refine ⟨out, ?_, (hmemsc out).mp hmem, ?_, ?_⟩
        · show computeBestThreshold (x :: xs) = some out
          simp only [computeBestThreshold]
          rw [if_neg (by rw [hcount]; omega), if_neg (by rw [hcount, hlen]; omega), heq]
        · intro s hs
          rw [← hf1eq s, ← hf1eq out]
          exact hmax s ((hmemsc s).mpr hs)
        · intro s hs hge
          rw [← hf1eq s, ← hf1eq out] at hge
          exact htie s ((hmemsc s).mpr hs) hge
  · norm_num [computeBestThreshold, sweep, countPos, f1Score, List.mergeSort]
/-- C3: `_should_deliver` returns false for a BLACKLIST decision, and true
for every non-BLACKLIST decision while fewer than 10,000 labels exist
(cold-start over-delivery), regardless of the score. -/
theorem c3_shouldDeliver_blacklist_coldstart (nLabels : ℕ)
    (ls : List LabeledScore) (scoreTotal : ℚ) (decision : String) :
    (decision = "BLACKLIST" → shouldDeliver nLabels ls scoreTotal decision = false) ∧
    (nLabels < MIN_LABELS_TO_AUTOFILTER → decision ≠ "BLACKLIST" →
      shouldDeliver nLabels ls scoreTotal decision = true) := by
  constructor
  · intro h
    simp [shouldDeliver, h]
  · intro hn hd
    simp [shouldDeliver, hd, hn]

theorem c3_witness :
    shouldDeliver 5 [] 0 "BLACKLIST" = false ∧ shouldDeliver 5 [] 0 "PUSH" = true :=
  ⟨(c3_shouldDeliver_blacklist_coldstart 5 [] 0 "BLACKLIST").1 rfl,
   (c3_shouldDeliver_blacklist_coldstart 5 [] 0 "PUSH").2
     (by norm_num [MIN_LABELS_TO_AUTOFILTER]) (by simp)⟩

/-- C1: with at least 10,000 labels and a non-BLACKLIST decision,
`_should_deliver` follows the adaptive threshold: an unbounded threshold
(no positive labels) delivers nothing, then WHITELIST always delivers,
then delivery happens iff the score reaches the threshold. -/
theorem c1_shouldDeliver_adaptive (nLabels : ℕ) (ls : List LabeledScore)
    (scoreTotal : ℚ) (decision : String)
    (hn : MIN_LABELS_TO_AUTOFILTER ≤ nLabels) (hbl : decision ≠ "BLACKLIST") :
    (computeBestThreshold ls = none →
      shouldDeliver nLabels ls scoreTotal decision = false) ∧
    (∀ t, computeBestThreshold ls = some t → decision = "WHITELIST" →
      shouldDeliver nLabels ls scoreTotal decision = true) ∧
    (∀ t, computeBestThreshold ls = some t → decision ≠ "WHITELIST" →
      (shouldDeliver nLabels ls scoreTotal decision = true ↔ t ≤ scoreTotal)) := by
  have hn' : ¬ nLabels < MIN_LABELS_TO_AUTOFILTER := not_lt.mpr hn
  refine ⟨?_, ?_, ?_⟩
  · intro h
    simp [shouldDeliver, hbl, hn', h]
  · intro t ht hw
    simp [shouldDeliver, hbl, hn', ht, hw]
  · intro t ht hw
    simp [shouldDeliver, hbl, hn', ht, hw]

theorem c1_witness :
    shouldDeliver 10000 [(3, 0)] 50 "PUSH" = false ∧
    shouldDeliver 10000 [(10, 1)] 50 "WHITELIST" = true ∧
    shouldDeliver 10000 [(10, 1)] 50 "PUSH" = true := by
  have h1 := c1_shouldDeliver_adaptive 10000 [(3, 0)] 50 "PUSH" (le_refl _) (by simp)
  have h2 := c1_shouldDeliver_adaptive 10000 [(10, 1)] 50 "WHITELIST" (le_refl _) (by simp)
  have h3 := c1_shouldDeliver_adaptive 10000 [(10, 1)] 50 "PUSH" (le_refl _) (by simp)
  have e1 : computeBestThreshold [(3, 0)] = none := by
    norm_num [computeBestThreshold, countPos, List.mergeSort]
  have e2 : computeBestThreshold [(10, 1)] = some 10 := by
    norm_num [computeBestThreshold, countPos, List.mergeSort]
  exact ⟨h1.1 e1, h2.2.1 10 e2 rfl, (h3.2.2 10 e2 (by simp)).mpr (by norm_num)⟩

theorem c2_witness :
    computeBestThreshold [(10, 1), (8, 1), (8, 0), (5, 0)] = some 8 ∧
    ∃ t, computeBestThreshold [(10, 1), (8, 1), (8, 0), (5, 0)] = some t ∧
      t ∈ scoresOf [(10, 1), (8, 1), (8, 0), (5, 0)] ∧
      (∀ s ∈ scoresOf [(10, 1), (8, 1), (8, 0), (5, 0)],
        f1At [(10, 1), (8, 1), (8, 0), (5, 0)] s ≤
        f1At [(10, 1), (8, 1), (8, 0), (5, 0)] t) ∧
      (∀ s ∈ scoresOf [(10, 1), (8, 1), (8, 0), (5, 0)],
        f1At [(10, 1), (8, 1), (8, 0), (5, 0)] t ≤
        f1At [(10, 1), (8, 1), (8, 0), (5, 0)] s → s ≤ t) := by
  refine ⟨(c2_computeBestThreshold_spec []).2.2.2, ?_⟩
  exact (c2_computeBestThreshold_spec [(10, 1), (8, 1), (8, 0), (5, 0)]).2.2.1
    (by norm_num [countPos]) (by norm_num [countPos])
/-! ## Rule engine (`rules/engine.py`, `RuleEngine.score`) -/

/-- Python strings are modelled as character lists. -/
abbrev Str := List Char

/-- Python's substring test `kw in hay`. -/
def containsSub (hay kw : Str) : Bool := decide (kw <:+: hay)

/-- Whitespace characters removed by Python's `str.strip()` (ASCII part). -/
def isPySpace (c : Char) : Bool :=
  c = ' ' ∨ c = '\t' ∨ c = '\n' ∨ c = '\r' ∨ c = '\x0b' ∨ c = '\x0c'

/-- `text.strip()`: whitespace removed from both ends. -/
def pyStrip (s : Str) : Str :=
  ((s.dropWhile isPySpace).reverse.dropWhile isPySpace).reverse

/-- The compiled rule configuration (`CompiledRules` in rules/engine.py),
with dict lookups-with-default resolved into total functions, dicts kept
as association lists in iteration order, and compiled regular expressions
abstracted as boolean match predicates (`pat.search(x) is not None`). -/
structure Rules where
  score_threshold : ℚ
  /-- `c.source_confidence.get(source_confidence, 1.0)` -/
  source_confidence : String → ℚ
  /-- `(c.weights.get("category") or {})` items in dict order -/
  catWeights : List (String × ℚ)
  /-- `topics.get(cat) or []` -/
  topics : String → List Str
  whitelist : List Str
  blacklist : List Str
  /-- compiled `block_title_regex` patterns, as `search(title)` predicates -/
  block_title_regex : List (Str → Bool)
  /-- `sig_weights.get(sig, 0)` -/
  sigWeights : String → ℚ
  /-- `c.signals` items: name and the compiled `any_regex` patterns, each a
  `search` predicate (the code tests `p.search(title) or p.search(text)`) -/
  signals : List (String × List (Str → Bool))
  min_effective : ℕ
  very_short : ℕ
  long_threshold : ℕ
  too_short_penalty : ℚ
  long_content_bonus : ℚ
  pure_help_penalty : ℚ
  clickbait_penalty : ℚ
  quarrel_penalty : ℚ
  repost_penalty : ℚ
  rss_only_penalty : ℚ
  trash : List Str

/-- Literal alternatives of the hard-coded clickbait title regex
`(震惊|必看|不看后悔|速看|重磅)` (engine.py line 166). -/
def clickbaitWords : List Str :=
  ["震惊".data, "必看".data, "不看后悔".data, "速看".data, "重磅".data]

/-- Literal alternatives of `(对线|别杠|喷|垃圾|傻|滚|引战)` (line 171). -/
def quarrelWords : List Str :=
  ["对线".data, "别杠".data, "喷".data, "垃圾".data, "傻".data, "滚".data, "引战".data]

/-- Literal alternatives of `(转载|搬运|转发)` (line 176). -/
def repostWords : List Str :=
  ["转载".data, "搬运".data, "转发".data]

/-- `hay = (title + "\n" + text).casefold()` for a given casefold model. -/
def hayOf (cf : Str → Str) (title text : Str) : Str :=
  cf (title ++ '\n' :: text)

/-- The category-keyword accumulation (engine.py lines 114-126): for each
category in the weights dict, the first matching topic keyword — if any —
adds that category's weight once. -/
def catRawScore (cf : Str → Str) (r : Rules) (hay : Str) : ℚ :=
  r.catWeights.foldl (fun acc p =>
    match (r.topics p.1).find? (fun kw => containsSub hay (cf kw)) with
    | some _ => acc + p.2
    | none => acc) 0

/-- The regex-signal accumulation (engine.py lines 129-139): a signal whose
patterns match the title or the text adds its weight when nonzero. -/
def sigRawScore (r : Rules) (title text : Str) : ℚ :=
  r.signals.foldl (fun acc sg =>
    if sg.2.any (fun p => p title || p text) then
      if r.sigWeights sg.1 ≠ 0 then acc + r.sigWeights sg.1 else acc
    else acc) 0

/-- The result of `RuleEngine.score` (the structured `explain` payload is
not modelled; it does not feed any decision). -/
structure ScoreResult where
  score_total : ℚ
  decision : String

/-- `RuleEngine.score` (engine.py lines 71-206), parameterized by a model
`cf` of Python's `str.casefold`.  Short-circuit order is exactly the
code's: blacklist keywords, blocked-title regexes, whitelist keywords,
then weighted accumulation, confidence multiplication, the RSS_ONLY
additive penalty, and the static PUSH/IGNORE threshold. -/
def score (cf : Str → Str) (r : Rules) (title text : Str)
    (source_confidence : String) : ScoreResult :=
  let hay := hayOf cf title text
  if r.blacklist.any (fun kw => !kw.isEmpty && containsSub hay (cf kw)) then
    ⟨-999, "BLACKLIST"⟩
  else if r.block_title_regex.any (fun pat => pat title) then
    ⟨-999, "BLACKLIST"⟩
  else if r.whitelist.any (fun kw => !kw.isEmpty && containsSub hay (cf kw)) then
    ⟨999, "WHITELIST"⟩
  else
    let effLen := (pyStrip text).length
    let raw :=
      catRawScore cf r hay + sigRawScore r title text
      + (if effLen < r.very_short then r.too_short_penalty else 0)
      + (if r.long_threshold ≤ effLen then
          (if r.long_content_bonus ≠ 0 then r.long_content_bonus else 0) else 0)
      + (if r.trash.any (fun w => containsSub hay (cf w)) ∧ effLen < r.min_effective
          then r.pure_help_penalty else 0)
      + (if clickbaitWords.any (fun w => containsSub title w)
          then r.clickbait_penalty else 0)
      + (if quarrelWords.any (fun w => containsSub hay w)
          then r.quarrel_penalty else 0)
      + (if repostWords.any (fun w => containsSub hay w)
          then r.repost_penalty else 0)
    let confidence_factor := r.source_confidence source_confidence
    let score_total₀ := raw * confidence_factor
    let score_total :=
      if source_confidence = "RSS_ONLY" then score_total₀ + r.rss_only_penalty
      else score_total₀
    ⟨score_total, if r.score_threshold ≤ score_total then "PUSH" else "IGNORE"⟩
/-- The category fold evaluates to the per-category sum: each category in
the weights dict contributes its weight exactly once when any of its topic
keywords occurs, and nothing otherwise — never once per keyword. -/
theorem foldl_cat_eq_sum (cf : Str → Str) (tp : String → List Str) (hay : Str) :
    ∀ (l : List (String × ℚ)) (acc : ℚ),
      l.foldl (fun acc p =>
        match (tp p.1).find? (fun kw => containsSub hay (cf kw)) with
        | some _ => acc + p.2
        | none => acc) acc =
      acc + (l.map (fun p : String × ℚ =>
        if ∃ kw ∈ tp p.1, cf kw <:+: hay then p.2 else 0)).sum
  | [], acc => by simp
  | p :: l, acc => by
    rw [List.foldl_cons, List.map_cons, List.sum_cons]
    rcases hfind : (tp p.1).find? (fun kw => containsSub hay (cf kw)) with _ | v
    · have hnone : ¬ ∃ kw ∈ tp p.1, cf kw <:+: hay := by
        rw [List.find?_eq_none] at hfind
        rintro ⟨kw, hkw, hinf⟩
        exact hfind kw hkw (by simpa [containsSub] using hinf)
      rw [foldl_cat_eq_sum cf tp hay l acc, if_neg hnone]
      ring
    · have hsome : ∃ kw ∈ tp p.1, cf kw <:+: hay :=
        ⟨v, List.mem_of_find?_eq_some hfind, by
          have := List.find?_some hfind
          simpa [containsSub] using this⟩
      rw [foldl_cat_eq_sum cf tp hay l (acc + p.2), if_pos hsome]
      ring

/-- The signal fold evaluates to the per-signal sum: a signal whose
patterns match title or text contributes its weight once. -/
theorem foldl_sig_eq_sum (sw : String → ℚ) (title text : Str) :
    ∀ (l : List (String × List (Str → Bool))) (acc : ℚ),
      l.foldl (fun acc sg =>
        if sg.2.any (fun p => p title || p text) then
          if sw sg.1 ≠ 0 then acc + sw sg.1 else acc
        else acc) acc =
      acc + (l.map (fun sg : String × List (Str → Bool) =>
        if ∃ p ∈ sg.2, p title = true ∨ p text = true then sw sg.1 else 0)).sum
  | [], acc => by simp
  | sg :: l, acc => by
    rw [List.foldl_cons, List.map_cons, List.sum_cons]
    by_cases hm : sg.2.any (fun p => p title || p text) = true
    · have hex : ∃ p ∈ sg.2, p title = true ∨ p text = true := by
        obtain ⟨p, hp, hor⟩ := List.any_eq_true.mp hm
        exact ⟨p, hp, Bool.or_eq_true _ _ |>.mp hor⟩
      rw [if_pos hm, if_pos hex]
      by_cases hz : sw sg.1 ≠ 0
      · rw [if_pos hz, foldl_sig_eq_sum sw title text l (acc + sw sg.1)]
        ring
      · rw [if_neg hz, foldl_sig_eq_sum sw title text l acc]
        push_neg at hz
        rw [hz]
        ring
    · have hex : ¬ ∃ p ∈ sg.2, p title = true ∨ p text = true := by
        rintro ⟨p, hp, hor⟩
        exact hm (List.any_eq_true.mpr ⟨p, hp, Bool.or_eq_true _ _ |>.mpr hor⟩)
      rw [if_neg hm, if_neg hex, foldl_sig_eq_sum sw title text l acc]
      ring

/-- C4: a nonempty blacklist keyword occurring (after casefold) in
title+text forces decision BLACKLIST with the −999 sentinel regardless of
every other rule, and — when neither a blacklist keyword nor a
blocked-title regex matches — a nonempty whitelist keyword occurrence
forces decision WHITELIST with the +999 sentinel. -/
theorem c4_score_shortcircuits (cf : Str → Str) (r : Rules)
    (title text : Str) (sc : String) :
    ((∃ kw ∈ r.blacklist, kw ≠ [] ∧ cf kw <:+: hayOf cf title text) →
      score cf r title text sc = ⟨-999, "BLACKLIST"⟩) ∧
    ((∀ kw ∈ r.blacklist, kw = [] ∨ ¬ cf kw <:+: hayOf cf title text) →
     (∀ pat ∈ r.block_title_regex, pat title = false) →
     (∃ kw ∈ r.whitelist, kw ≠ [] ∧ cf kw <:+: hayOf cf title text) →
      score cf r title text sc = ⟨999, "WHITELIST"⟩) := by
  constructor
  · rintro ⟨kw, hkw, hne, hinf⟩
    have hb : r.blacklist.any
        (fun kw => !kw.isEmpty && containsSub (hayOf cf title text) (cf kw)) = true :=
      List.any_eq_true.mpr ⟨kw, hkw, by
        simp [containsSub, hinf, List.isEmpty_iff, hne]⟩
    simp [score, hb]
  · intro hbl hreg hwl
    obtain ⟨kw, hkw, hne, hinf⟩ := hwl
    have hb : r.blacklist.any
        (fun kw => !kw.isEmpty && containsSub (hayOf cf title text) (cf kw)) = false := by
      rw [List.any_eq_false]
      intro k hk
      rcases hbl k hk with h | h
      · simp [h]
      · simp [containsSub, h]
    have hr : r.block_title_regex.any (fun pat => pat title) = false := by
      rw [List.any_eq_false]
      intro pat hp
      simp [hreg pat hp]
    have hw : r.whitelist.any
        (fun kw => !kw.isEmpty && containsSub (hayOf cf title text) (cf kw)) = true :=
      List.any_eq_true.mpr ⟨kw, hkw, by
        simp [containsSub, hinf, List.isEmpty_iff, hne]⟩
    simp [score, hb, hr, hw]
/-- C5: with no short-circuit, the total is the accumulated raw score —
at most one weighted hit per topic category, regardless of how many of
that category's keywords occur — multiplied by the confidence factor for
the source confidence, plus the fixed additive RSS_ONLY penalty applied
after the multiplication exactly for feed-only content; the decision is
PUSH iff the total reaches the static threshold, else IGNORE. -/
theorem c5_score_accumulation (cf : Str → Str) (r : Rules)
    (title text : Str) (sc : String)
    (hbl : ∀ kw ∈ r.blacklist, kw = [] ∨ ¬ cf kw <:+: hayOf cf title text)
    (hreg : ∀ pat ∈ r.block_title_regex, pat title = false)
    (hwl : ∀ kw ∈ r.whitelist, kw = [] ∨ ¬ cf kw <:+: hayOf cf title text) :
    (score cf r title text sc).score_total =
      ((r.catWeights.map (fun p : String × ℚ =>
          if ∃ kw ∈ r.topics p.1, cf kw <:+: hayOf cf title text then p.2 else 0)).sum
        + (r.signals.map (fun sg : String × List (Str → Bool) =>
            if ∃ p ∈ sg.2, p title = true ∨ p text = true then r.sigWeights sg.1 else 0)).sum
        + (if (pyStrip text).length < r.very_short then r.too_short_penalty else 0)
        + (if r.long_threshold ≤ (pyStrip text).length then
            (if r.long_content_bonus ≠ 0 then r.long_content_bonus else 0) else 0)
        + (if (∃ w ∈ r.trash, cf w <:+: hayOf cf title text) ∧
              (pyStrip text).length < r.min_effective then r.pure_help_penalty else 0)
        + (if ∃ w ∈ clickbaitWords, w <:+: title then r.clickbait_penalty else 0)
        + (if ∃ w ∈ quarrelWords, w <:+: hayOf cf title text then r.quarrel_penalty else 0)
        + (if ∃ w ∈ repostWords, w <:+: hayOf cf title text then r.repost_penalty else 0))
        * r.source_confidence sc
      + (if sc = "RSS_ONLY" then r.rss_only_penalty else 0) ∧
    (score cf r title text sc).decision =
      (if r.score_threshold ≤ (score cf r title text sc).score_total
        then "PUSH" else "IGNORE") := by
  have hb : r.blacklist.any
      (fun kw => !kw.isEmpty && containsSub (hayOf cf title text) (cf kw)) = false := by
    rw [List.any_eq_false]
    intro k hk
    rcases hbl k hk with h | h
    · simp [h]
    · simp [containsSub, h]
  have hr : r.block_title_regex.any (fun pat => pat title) = false := by
    rw [List.any_eq_false]
    intro pat hp
    simp [hreg pat hp]
  have hw : r.whitelist.any
      (fun kw => !kw.isEmpty && containsSub (hayOf cf title text) (cf kw)) = false := by
    rw [List.any_eq_false]
    intro k hk
    rcases hwl k hk with h | h
    · simp [h]
    · simp [containsSub, h]
  have hcat : catRawScore cf r (hayOf cf title text) =
      (r.catWeights.map (fun p : String × ℚ =>
        if ∃ kw ∈ r.topics p.1, cf kw <:+: hayOf cf title text then p.2 else 0)).sum := by
    unfold catRawScore
    rw [foldl_cat_eq_sum, zero_add]
  have hsig : sigRawScore r title text =
      (r.signals.map (fun sg : String × List (Str → Bool) =>
        if ∃ p ∈ sg.2, p title = true ∨ p text = true then r.sigWeights sg.1 else 0)).sum := by
    unfold sigRawScore
    rw [foldl_sig_eq_sum, zero_add]
  constructor
  · simp only [score, hb, hr, hw, Bool.false_eq_true, if_false, hcat, hsig]
    simp only [List.any_eq_true, containsSub, decide_eq_true_eq, Bool.or_eq_true]
    by_cases hrss : sc = "RSS_ONLY" <;> simp [hrss]
  · simp only [score, hb, hr, hw, Bool.false_eq_true, if_false]
/-- A small concrete rule set exercising the rule-engine theorems. -/
def wRules : Rules where
  score_threshold := 18
  source_confidence := fun _ => 1
  catWeights := [("vps", 10)]
  topics := fun c => if c = "vps" then ["vps".data] else []
  whitelist := ["gold".data]
  blacklist := ["bad".data]
  block_title_regex := []
  sigWeights := fun _ => 0
  signals := []
  min_effective := 180
  very_short := 80
  long_threshold := 1200
  too_short_penalty := -8
  long_content_bonus := 0
  pure_help_penalty := -7
  clickbait_penalty := -8
  quarrel_penalty := -10
  repost_penalty := -6
  rss_only_penalty := -4
  trash := []

theorem c4_witness :
    score id wRules "t".data "a bad day".data "HTML_FULL" = ⟨-999, "BLACKLIST"⟩ ∧
    score id wRules "t".data "pure gold".data "HTML_FULL" = ⟨999, "WHITELIST"⟩ :=
  ⟨(c4_score_shortcircuits id wRules "t".data "a bad day".data "HTML_FULL").1
     ⟨"bad".data, by decide, by decide, by decide⟩,
   (c4_score_shortcircuits id wRules "t".data "pure gold".data "HTML_FULL").2
     (by decide) (by decide) ⟨"gold".data, by decide, by decide, by decide⟩⟩

theorem c5_witness :
    (score id wRules "t".data "vps time".data "HTML_FULL").score_total = 2 ∧
    (score id wRules "t".data "vps time".data "HTML_FULL").decision = "IGNORE" := by
  obtain ⟨h1, h2⟩ := c5_score_accumulation id wRules "t".data "vps time".data "HTML_FULL"
    (by decide) (by decide) (by decide)
  have ht : (score id wRules "t".data "vps time".data "HTML_FULL").score_total = 2 := by
    rw [h1]
    simp [wRules, clickbaitWords, quarrelWords, repostWords, hayOf]
    have hc1 : (['v', 'p', 's'] : Str) <:+:
        ['t', '\n', 'v', 'p', 's', ' ', 't', 'i', 'm', 'e'] := by decide
    have hc2 : List.length (pyStrip ['v', 'p', 's', ' ', 't', 'i', 'm', 'e']) < 80 := by
      decide
    have hc3 : ¬(['震', '惊'] <:+: (['t'] : Str) ∨ ['必', '看'] <:+: (['t'] : Str) ∨
        ['不', '看', '后', '悔'] <:+: (['t'] : Str) ∨ ['速', '看'] <:+: (['t'] : Str) ∨
        ['重', '磅'] <:+: (['t'] : Str)) := by decide
    have hc4 : ¬(['对', '线'] <:+: (['t', '\n', 'v', 'p', 's', ' ', 't', 'i', 'm', 'e'] : Str) ∨
        ['别', '杠'] <:+: (['t', '\n', 'v', 'p', 's', ' ', 't', 'i', 'm', 'e'] : Str) ∨
        ['喷'] <:+: (['t', '\n', 'v', 'p', 's', ' ', 't', 'i', 'm', 'e'] : Str) ∨
        ['垃', '圾'] <:+: (['t', '\n', 'v', 'p', 's', ' ', 't', 'i', 'm', 'e'] : Str) ∨
        ['傻'] <:+: (['t', '\n', 'v', 'p', 's', ' ', 't', 'i', 'm', 'e'] : Str) ∨
        ['滚'] <:+: (['t', '\n', 'v', 'p', 's', ' ', 't', 'i', 'm', 'e'] : Str) ∨
        ['引', '战'] <:+: (['t', '\n', 'v', 'p', 's', ' ', 't', 'i', 'm', 'e'] : Str)) := by
      decide
    have hc5 : ¬(['转', '载'] <:+: (['t', '\n', 'v', 'p', 's', ' ', 't', 'i', 'm', 'e'] : Str) ∨
        ['搬', '运'] <:+: (['t', '\n', 'v', 'p', 's', ' ', 't', 'i', 'm', 'e'] : Str) ∨
        ['转', '发'] <:+: (['t', '\n', 'v', 'p', 's', ' ', 't', 'i', 'm', 'e'] : Str)) := by
      decide
    rw [if_pos hc1, if_pos hc2, if_neg hc3, if_neg hc4, if_neg hc5]
    norm_num
  refine ⟨ht, ?_⟩
  rw [h2, ht]
  norm_num [wRules]
/-! ## Long-text chunker (`ai/client.py`, `OpenAICompatClient._chunk_text`) -/

/-- The `while start < n` loop of `_chunk_text` (client.py lines 166-175)
for effective chunk size `C` and overlap `O` (`hO` records the clamp
`overlap <= chunk_chars - 1` computed on line 164, which guarantees the
forward progress `C - O > 0` and hence termination).  One iteration emits
`text[start:end]` with `end = min(n, start + C)`, stops when the end
reaches the text, and otherwise advances `start` to `end - overlap`
(Python's `max(0, ...)` is a no-op here since `end ≥ C > O`). -/
def chunkLoop (C O : ℕ) (hO : O < C) (text : Str) (start : ℕ) : List Str :=
  if h : start < text.length then
    let endp := min text.length (start + C)
    if endp ≥ text.length then
      [(text.drop start).take (endp - start)]
    else
      ((text.drop start).take (endp - start)) :: chunkLoop C O hO text (endp - O)
  else []
termination_by text.length - start
decreasing_by
  simp only [not_le] at *
  omega

/-- `_chunk_text` (client.py lines 162-175):
`chunk_chars = max(2000, cfg.chunk_chars)` and
`overlap = max(0, min(chunk_chars - 1, cfg.chunk_overlap_chars))` (the
`max 0` is the identity on `ℕ`), then the chunking loop from `start = 0`. -/
def chunkText (chunk_chars overlap : ℕ) (text : Str) : List Str :=
  chunkLoop (max 2000 chunk_chars) (min (max 2000 chunk_chars - 1) overlap)
    (by omega) text 0

/-- Concatenation of the first chunk with every later chunk's non-overlap
region (the part after its first `O` characters). -/
def reconstruct (O : ℕ) : List Str → Str
  | [] => []
  | c :: cs => c ++ (cs.map (List.drop O)).flatten
/-- Round-trip invariant of the chunk loop: started anywhere inside the
text it produces a nonempty chunk list whose reconstruction is exactly the
remaining text, and whose head chunk has the expected clipped length. -/
theorem chunkLoop_reconstruct (C O : ℕ) (hO : O < C) (text : Str) :
    ∀ fuel start, text.length - start ≤ fuel → start < text.length →
      ∃ c cs, chunkLoop C O hO text start = c :: cs ∧
        reconstruct O (c :: cs) = text.drop start ∧
        c.length = min (text.length - start) C
  | 0, start, hfuel, hstart => absurd hfuel (by omega)
  | fuel + 1, start, hfuel, hstart => by
    rw [chunkLoop]
    rw [dif_pos hstart]
    by_cases hend : min text.length (start + C) ≥ text.length
    · rw [if_pos hend]
      have hmin : min text.length (start + C) = text.length := by omega
      refine ⟨_, [], rfl, ?_, ?_⟩
      · simp only [reconstruct, List.map_nil, List.flatten_nil, List.append_nil]
        rw [hmin]
        rw [List.take_of_length_le (by simp [List.length_drop])]
      · simp only [List.length_take, List.length_drop, hmin]
        omega
    · rw [if_neg hend]
      push_neg at hend
      have hmin : min text.length (start + C) = start + C := by omega
      have hstart' : min text.length (start + C) - O < text.length := by omega
      have hfuel' : text.length - (min text.length (start + C) - O) ≤ fuel := by omega
      obtain ⟨c', cs', heq', hrec', hlen'⟩ :=
        chunkLoop_reconstruct C O hO text fuel (min text.length (start + C) - O)
          hfuel' hstart'
      refine ⟨_, c' :: cs', by rw [heq'], ?_, ?_⟩
      · have hO_le : O ≤ c'.length := by
          rw [hlen']
          omega
        simp only [reconstruct, List.map_cons, List.flatten_cons] at hrec' ⊢
        rw [← List.drop_append_of_le_length hO_le, hrec', List.drop_drop]
        have harg : min text.length (start + C) - O + O = start + C := by omega
        rw [harg, hmin]
        have h1 : text.drop (start + C) = (text.drop start).drop C := by
          rw [List.drop_drop]
        have h2 : start + C - start = C := by omega
        rw [h1, h2, List.take_append_drop]
      · simp only [List.length_take, List.length_drop, hmin]
        omega

/-- Chunk-count invariant: from any start position with more than the
overlap left, the loop emits `⌈(remaining − O) / (C − O)⌉` chunks (written
with natural division as `((rem − O) + (C − O) − 1) / (C − O)`). -/
theorem chunkLoop_length (C O : ℕ) (hO : O < C) (text : Str) :
    ∀ fuel start, text.length - start ≤ fuel → start + O < text.length →
      (chunkLoop C O hO text start).length =
        ((text.length - start - O) + (C - O) - 1) / (C - O)
  | 0, start, hfuel, hstart => absurd hfuel (by omega)
  | fuel + 1, start, hfuel, hstart => by
    rw [chunkLoop, dif_pos (by omega)]
    by_cases hend : min text.length (start + C) ≥ text.length
    · rw [if_pos hend]
      have h1 : 1 * (C - O) ≤ (text.length - start - O) + (C - O) - 1 := by omega
      have h2 : (text.length - start - O) + (C - O) - 1 < (1 + 1) * (C - O) := by omega
      rw [List.length_singleton, Nat.div_eq_of_lt_le h1 h2]
    · rw [if_neg hend]
      push_neg at hend
      have hmin : min text.length (start + C) = start + C := by omega
      have hstart' : (min text.length (start + C) - O) + O < text.length := by omega
      have hfuel' : text.length - (min text.length (start + C) - O) ≤ fuel := by omega
      rw [List.length_cons,
        chunkLoop_length C O hO text fuel (min text.length (start + C) - O)
          hfuel' hstart']
      have harg2 : text.length - (min text.length (start + C) - O) - O + (C - O) - 1 + (C - O) =
          text.length - start - O + (C - O) - 1 := by omega
      have hd : 0 < C - O := by omega
      rw [← harg2, Nat.add_div_right _ hd]
/-- C6 counterexample to the claim as stated: for the empty text (length
`L = 0 ≤ C`) `_chunk_text` returns zero chunks, not exactly one — the
`while start < n` loop never runs. -/
theorem c6_counterexample :
    (chunkText 2000 100 ([] : Str)).length = 0 ∧
    ¬ (chunkText 2000 100 ([] : Str)).length = 1 := by
  have h : chunkText 2000 100 ([] : Str) = [] := by
    rw [chunkText, chunkLoop]
    simp
  rw [h]
  simp

/-- C6 (amended): writing `C = max 2000 chunk_chars` and
`O = min (C-1) overlap` for the effective size and overlap, the overlap
stays strictly below the chunk size (each loop step advances the start by
`C - O > 0`); concatenating the first chunk with every later chunk's
region after its first `O` characters reconstructs the text exactly; for
`L > C` the chunk count is `⌈(L−O)/(C−O)⌉` (as natural division
`((L−O)+(C−O)−1)/(C−O)`); for `0 < L ≤ C` it is exactly 1; and for the
empty text it is 0 (not 1 as the claim stated). -/
theorem c6_chunkText_spec (cc ov : ℕ) (text : Str) :
    (min (max 2000 cc - 1) ov < max 2000 cc) ∧
    (reconstruct (min (max 2000 cc - 1) ov) (chunkText cc ov text) = text) ∧
    (max 2000 cc < text.length →
      (chunkText cc ov text).length =
        ((text.length - min (max 2000 cc - 1) ov) +
          (max 2000 cc - min (max 2000 cc - 1) ov) - 1) /
          (max 2000 cc - min (max 2000 cc - 1) ov)) ∧
    (0 < text.length → text.length ≤ max 2000 cc →
      (chunkText cc ov text).length = 1) ∧
    (text.length = 0 → chunkText cc ov text = []) := by
  refine ⟨by omega, ?_, ?_, ?_, ?_⟩
  · by_cases hne : 0 < text.length
    · obtain ⟨c, cs, heq, hrec, _⟩ :=
        chunkLoop_reconstruct (max 2000 cc) (min (max 2000 cc - 1) ov) (by omega)
          text text.length 0 (by omega) hne
      rw [chunkText, heq, hrec, List.drop_zero]
    · have h0 : text = [] := by
        rw [← List.length_eq_zero]
        omega
      subst h0
      rw [chunkText, chunkLoop]
      simp [reconstruct]
  · intro hlt
    rw [chunkText, chunkLoop_length (max 2000 cc) (min (max 2000 cc - 1) ov) (by omega)
      text text.length 0 (by omega) (by omega), Nat.sub_zero]
  · intro hpos hle
    rw [chunkText, chunkLoop, dif_pos hpos, if_pos (by omega)]
    simp
  · intro h0
    rw [chunkText, chunkLoop]
    simp [h0]

theorem c6_witness :
    (chunkText 2000 100 (List.replicate 3000 'a')).length = 2 ∧
    reconstruct (min (max 2000 2000 - 1) 100) (chunkText 2000 100 (List.replicate 3000 'a')) =
      List.replicate 3000 'a' := by
  have h := c6_chunkText_spec 2000 100 (List.replicate 3000 'a')
  refine ⟨?_, h.2.1⟩
  have hc := h.2.2.1 (by rw [List.length_replicate]; norm_num)
  rw [hc]
  norm_num [List.length_replicate]
/-! ## Crawler disablement (`crawler/service.py`) -/

/-- `FulltextDisabledState` (service.py lines 15-35).  Timestamps are
rationals (seconds, as returned by `time.time()`). -/
structure FulltextDisabledState where
  disabled_until_ts : Option ℚ
  disabled_forever : Bool

/-- `disable_for_seconds`: clears the forever flag and sets the deadline
`time.time() + max(0, seconds)`. -/
def FulltextDisabledState.disable_for_seconds (st : FulltextDisabledState)
    (now : ℚ) (seconds : ℤ) : FulltextDisabledState :=
  { st with disabled_forever := false,
            disabled_until_ts := some (now + max 0 (seconds : ℚ)) }

/-- `disable_forever`: sets the forever flag and clears the deadline. -/
def FulltextDisabledState.disable_forever (st : FulltextDisabledState) :
    FulltextDisabledState :=
  { st with disabled_forever := true, disabled_until_ts := none }

/-- `enable`: clears both. -/
def FulltextDisabledState.enable (st : FulltextDisabledState) :
    FulltextDisabledState :=
  { st with disabled_forever := false, disabled_until_ts := none }

/-- `is_disabled`: forever, or a deadline strictly in the future. -/
def FulltextDisabledState.is_disabled (st : FulltextDisabledState)
    (now : ℚ) : Bool :=
  st.disabled_forever ||
    (match st.disabled_until_ts with
     | some t => decide (now < t)
     | none => false)

/-- `FetchError` (crawler/errors.py): a classified fetch failure. -/
structure FetchError where
  error_type : String
  detail : String

/-- The slice of `ContentResult` (storage/types.py) that
`fetch_best_effort` constructs for the feed-only fallback (`content_hash`
and `fetched_at` are environment-dependent and not modelled). -/
structure ContentResult where
  content_text : Str
  content_len : ℕ
  source_confidence : String

/-- `FetchAttempt` (storage/types.py). -/
structure FetchAttempt where
  method : String
  ok : Bool
  http_status : Option ℤ
  error_type : Option String
  error_detail : Option String
  duration_ms : Option ℤ

/-- `CrawlerService._rss_only` (service.py lines 66-74). -/
def rss_only (t : Str) : ContentResult :=
  ⟨t, t.length, "RSS_ONLY"⟩

/-- What one underlying fetcher call would do if performed: succeed,
raise a classified `FetchError`, or raise some other exception. -/
inductive FetchOutcome where
  | ok (result : ContentResult) (http_status : Option ℤ) (duration_ms : Option ℤ)
  | fetchErr (e : FetchError)
  | exn (msg : String)

/-- `CrawlerService.fetch_best_effort` (service.py lines 76-171), as a
pure step function: the mutable disable state is passed in and returned,
`now` models `time.time()`, and the two fetchers are modelled by the
outcomes they would produce if actually called.  An unclassified
exception on the HTTP path propagates (`Except.error`); everything else
returns a result, the attempt log, and the successor state. -/
def fetch_best_effort (stop_on_antibot : Bool) (login_backoff_seconds : ℤ)
    (allow_browser browser_configured : Bool)
    (st : FulltextDisabledState) (now : ℚ)
    (httpOutcome browserOutcome : FetchOutcome) (rss_fallback_text : Str) :
    Except String (ContentResult × List FetchAttempt × FulltextDisabledState) :=
  if st.is_disabled now then
    .ok (rss_only rss_fallback_text, [], st)
  else
    match httpOutcome with
    | .ok result status dur =>
      .ok (result, [⟨"HTTP", true, status, none, none, dur⟩], st)
    | .exn msg => .error msg
    | .fetchErr e =>
      let attempts1 : List FetchAttempt :=
        [⟨"HTTP", false, none, some e.error_type, some e.detail, none⟩]
      if e.error_type = "ANTIBOT" ∧ stop_on_antibot then
        .ok (rss_only rss_fallback_text, attempts1, st.disable_forever)
      else if e.error_type = "LOGIN_REQUIRED" ∧ stop_on_antibot then
        .ok (rss_only rss_fallback_text, attempts1,
          st.disable_for_seconds now login_backoff_seconds)
      else if allow_browser ∧ browser_configured then
        match browserOutcome with
        | .ok result status dur =>
          .ok (result, attempts1 ++ [⟨"BROWSER", true, status, none, none, dur⟩], st)
        | .fetchErr e2 =>
          let attempts2 := attempts1 ++
            [⟨"BROWSER", false, none, some e2.error_type, some e2.detail, none⟩]
          if e2.error_type = "ANTIBOT" ∧ stop_on_antibot then
            .ok (rss_only rss_fallback_text, attempts2, st.disable_forever)
          else if e2.error_type = "LOGIN_REQUIRED" ∧ stop_on_antibot then
            .ok (rss_only rss_fallback_text, attempts2,
              st.disable_for_seconds now login_backoff_seconds)
          else
            .ok (rss_only rss_fallback_text, attempts2, st)
        | .exn msg =>
          .ok (rss_only rss_fallback_text,
            attempts1 ++ [⟨"BROWSER", false, none, some "UNKNOWN",
              some ((msg.data.take 240).asString), none⟩], st)
      else
        .ok (rss_only rss_fallback_text, attempts1, st)

/-- A sequence of `fetch_best_effort` calls threaded through the disable
state: returns each call's result (content and attempts) plus the final
state. -/
def runSequence (stop_on_antibot : Bool) (login_backoff_seconds : ℤ)
    (allow_browser browser_configured : Bool) (st : FulltextDisabledState) :
    List (ℚ × FetchOutcome × FetchOutcome × Str) →
    List (Except String (ContentResult × List FetchAttempt)) × FulltextDisabledState
  | [] => ([], st)
  | (now, ho, bo, fb) :: calls =>
    match fetch_best_effort stop_on_antibot login_backoff_seconds
        allow_browser browser_configured st now ho bo fb with
    | .error msg =>
      let rest := runSequence stop_on_antibot login_backoff_seconds
        allow_browser browser_configured st calls
      (.error msg :: rest.1, rest.2)
    | .ok (res, att, st') =>
      let rest := runSequence stop_on_antibot login_backoff_seconds
        allow_browser browser_configured st' calls
      (.ok (res, att) :: rest.1, rest.2)
/-- C7: with the "stop on anti-bot" policy enabled, an anti-bot-classified
HTTP failure while the service is enabled permanently disables it; once
permanently disabled, every subsequent `fetch_best_effort` call — whatever
its fetcher outcomes would be, so no network I/O is consumed — returns the
feed-only fallback with an empty attempt list and leaves the state
unchanged, until `enable` explicitly clears it; a login-required-classified
failure instead disables for exactly the configured backoff window
`[now, now + backoff)`, after which fetching resumes automatically. -/
theorem c7_crawler_disablement (lbs : ℤ) (ab bc : Bool)
    (st : FulltextDisabledState) (now : ℚ) :
    (st.is_disabled now = false → ∀ d bo fb,
      fetch_best_effort true lbs ab bc st now (.fetchErr ⟨"ANTIBOT", d⟩) bo fb =
        .ok (rss_only fb,
          [⟨"HTTP", false, none, some "ANTIBOT", some d, none⟩],
          st.disable_forever) ∧
      st.disable_forever.disabled_forever = true) ∧
    (st.disabled_forever = true → ∀ calls,
      (runSequence true lbs ab bc st calls).2 = st ∧
      (runSequence true lbs ab bc st calls).1 =
        calls.map (fun c => .ok (rss_only c.2.2.2, []))) ∧
    (∀ t, (st.enable).is_disabled t = false) ∧
    (st.is_disabled now = false → 0 ≤ lbs → ∀ d bo fb,
      fetch_best_effort true lbs ab bc st now
          (.fetchErr ⟨"LOGIN_REQUIRED", d⟩) bo fb =
        .ok (rss_only fb,
          [⟨"HTTP", false, none, some "LOGIN_REQUIRED", some d, none⟩],
          st.disable_for_seconds now lbs) ∧
      (∀ t, (st.disable_for_seconds now lbs).is_disabled t = true ↔
        t < now + lbs)) := by
  refine ⟨?_, ?_, ?_, ?_⟩
  · intro hdis d bo fb
    refine ⟨?_, rfl⟩
    simp [fetch_best_effort, hdis]
  · intro hforever calls
    induction calls with
    | nil => exact ⟨rfl, rfl⟩
    | cons c calls ih =>
      obtain ⟨now', ho, bo, fb⟩ := c
      have hdis : st.is_disabled now' = true := by
        simp [FulltextDisabledState.is_disabled, hforever]
      refine ⟨?_, ?_⟩
      · simp only [runSequence, fetch_best_effort, hdis, if_true]
        exact ih.1
      · simp only [runSequence, fetch_best_effort, hdis, if_true, List.map_cons]
        rw [ih.2]
  · intro t
    simp [FulltextDisabledState.enable, FulltextDisabledState.is_disabled]
  · intro hdis hlbs d bo fb
    refine ⟨?_, ?_⟩
    · simp [fetch_best_effort, hdis]
    · intro t
      have hmax : max 0 (lbs : ℚ) = (lbs : ℚ) := by
        rw [max_eq_right]
        exact_mod_cast hlbs
      simp [FulltextDisabledState.disable_for_seconds,
        FulltextDisabledState.is_disabled, hmax]

theorem c7_witness :
    (fetch_best_effort true 60 false false ⟨none, false⟩ 0
        (.fetchErr ⟨"ANTIBOT", "challenge"⟩) (.exn "boom") "fb".data =
      .ok (rss_only "fb".data,
        [⟨"HTTP", false, none, some "ANTIBOT", some "challenge", none⟩],
        ⟨none, true⟩)) ∧
    ((runSequence true 60 false false ⟨none, true⟩
        [(1, .exn "x", .exn "y", "f".data)]).2 = ⟨none, true⟩) ∧
    ((runSequence true 60 false false ⟨none, true⟩
        [(1, .exn "x", .exn "y", "f".data)]).1 = [.ok (rss_only "f".data, [])]) ∧
    ((FulltextDisabledState.mk none false).disable_for_seconds 0 60).is_disabled 30
      = true := by
  have h1 := (c7_crawler_disablement 60 false false ⟨none, false⟩ 0).1 rfl
    "challenge" (.exn "boom") "fb".data
  have h2 := (c7_crawler_disablement 60 false false ⟨none, true⟩ 0).2.1 rfl
    [(1, .exn "x", .exn "y", "f".data)]
  have h4 := ((c7_crawler_disablement 60 false false ⟨none, false⟩ 0).2.2.2 rfl
    (by norm_num) "d" (.exn "z") "f".data).2 30
  refine ⟨h1.1, h2.1, ?_, h4.mpr (by norm_num)⟩
  rw [h2.2]
  rfl
/-! ## Summarization request retry (`ai/client.py`, `OpenAICompatClient._post`) -/

/-- What one POST to the provider would do: a transport-level failure
(`httpx.TransportError` / `httpx.ReadTimeout`) or a response with the
given HTTP status code. -/
inductive PostOutcome where
  | netErr
  | resp (status : ℕ)

/-- Whether one iteration of the `_post` loop body (client.py lines
105-114) raises an exception that the handler
`except (httpx.TransportError, httpx.ReadTimeout, httpx.HTTPStatusError)`
catches: a transport error; the explicitly raised retryable
`HTTPStatusError` for status 429 or ≥ 500; or the `HTTPStatusError`
raised by `resp.raise_for_status()` for every other status ≥ 400 — which
the very same handler catches too. -/
def attemptCaught : PostOutcome → Bool
  | .netErr => true
  | .resp status =>
    if status = 429 ∨ 500 ≤ status then true
    else if 400 ≤ status then true
    else false

/-- The retry loop of `_post` (client.py lines 101-121) with
`attempts = max(0, max_retries) + 1`: a caught exception on the last
iteration re-raises, a caught exception earlier sleeps (exponential
backoff plus jitter) and retries, an uncaught body returns the JSON.
The model returns how many POSTs were issued and whether the call
succeeded. -/
def postLoop (outcomes : ℕ → PostOutcome) : ℕ → ℕ → ℕ × Bool
  | _, 0 => (0, false)
  | i, remaining + 1 =>
    if attemptCaught (outcomes i) then
      if remaining = 0 then (1, false)
      else
        ((postLoop outcomes (i + 1) remaining).1 + 1,
          (postLoop outcomes (i + 1) remaining).2)
    else (1, true)

/-- `_post` issues up to `max(0, max_retries) + 1` attempts. -/
def post (max_retries : ℤ) (outcomes : ℕ → PostOutcome) : ℕ × Bool :=
  postLoop outcomes 0 ((max 0 max_retries).toNat + 1)

/-- C8, evaluated at the failing input: with `max_retries = 1`, a request
whose every attempt yields HTTP 404 is *retried* — two POSTs are issued
and the handler catches the 404's `HTTPStatusError` — although the
claim (and the code's own comment, line 100) says a non-429 4xx is a
permanent failure that is not retried.  Transient errors and 429/5xx are
retried and a 2xx succeeds on the first attempt, as claimed. -/
theorem c8_retries_on_404 :
    attemptCaught (.resp 404) = true ∧
    post 1 (fun _ => .resp 404) = (2, false) ∧
    attemptCaught (.resp 429) = true ∧
    attemptCaught (.resp 503) = true ∧
    attemptCaught .netErr = true ∧
    post 1 (fun _ => .resp 200) = (1, true) := by
  refine ⟨rfl, ?_, rfl, rfl, rfl, ?_⟩ <;> decide
/-! ## Label storage (`storage/db.py`, `Storage.upsert_label`) -/

/-- `str.lower()`, modelled per character. -/
def pyLower (s : Str) : Str := s.map Char.toLower

/-- The labels table keyed by `post_id` (`ux_labels_post_id` enforces one
row per post); `labeled_by`/`labeled_at` carry no logic and are omitted. -/
abbrev LabelsTable := List (ℤ × Str)

/-- `INSERT ... ON CONFLICT(post_id) DO UPDATE SET label=excluded.label`
against the unique `post_id` index: replace the existing row, else
append. -/
def upsertRow (tbl : LabelsTable) (pid : ℤ) (lab : Str) : LabelsTable :=
  if tbl.any (fun r => decide (r.1 = pid)) then
    tbl.map (fun r => if r.1 = pid then (pid, lab) else r)
  else tbl ++ [(pid, lab)]

/-- `Storage.upsert_label` (db.py lines 379-392): normalize
`(label or "").strip().lower()`; anything but `useful`/`useless` raises
`ValueError` before the database is touched; a valid label is upserted. -/
def upsert_label (tbl : LabelsTable) (post_id : ℤ) (label : Str) :
    Except String LabelsTable :=
  let lab := pyLower (pyStrip label)
  if lab = "useful".data ∨ lab = "useless".data then
    .ok (upsertRow tbl post_id lab)
  else .error "invalid label"

theorem upsertRow_key_val (tbl : LabelsTable) (pid : ℤ) (lab : Str) :
    ∀ r ∈ upsertRow tbl pid lab, r.1 = pid → r.2 = lab := by
  intro r hr hkey
  unfold upsertRow at hr
  by_cases hany : tbl.any (fun r => decide (r.1 = pid)) = true
  · rw [if_pos hany] at hr
    obtain ⟨a, _, hfa⟩ := List.mem_map.mp hr
    by_cases ha : a.1 = pid
    · rw [if_pos ha] at hfa
      rw [← hfa]
    · rw [if_neg ha] at hfa
      exact absurd (hfa ▸ hkey) ha
  · rw [if_neg hany] at hr
    rcases List.mem_append.mp hr with h | h
    · have hany' := List.any_eq_false.mp (Bool.eq_false_iff.mpr hany)
      have := hany' r h
      simp [hkey] at this
    · simp only [List.mem_singleton] at h
      rw [h]

theorem upsertRow_count (tbl : LabelsTable) (pid : ℤ) (lab : Str)
    (h1 : tbl.countP (fun r => decide (r.1 = pid)) ≤ 1) :
    (upsertRow tbl pid lab).countP (fun r => decide (r.1 = pid)) = 1 := by
  unfold upsertRow
  by_cases hany : tbl.any (fun r => decide (r.1 = pid)) = true
  · rw [if_pos hany, List.countP_map]
    have hpos : 0 < tbl.countP (fun r => decide (r.1 = pid)) := by
      rw [List.countP_pos]
      obtain ⟨a, ha, hpa⟩ := List.any_eq_true.mp hany
      exact ⟨a, ha, hpa⟩
    have hcongr : tbl.countP
        ((fun r : ℤ × Str => decide (r.1 = pid)) ∘
          (fun r => if r.1 = pid then (pid, lab) else r)) =
        tbl.countP (fun r => decide (r.1 = pid)) := by
      apply List.countP_congr
      intro a _
      by_cases ha : a.1 = pid
      · simp [Function.comp, ha]
      · simp [Function.comp, ha]
    rw [hcongr]
    omega
  · rw [if_neg hany, List.countP_append]
    have h0 : tbl.countP (fun r => decide (r.1 = pid)) = 0 := by
      rw [List.countP_eq_zero]
      intro a ha
      exact (List.any_eq_false.mp (Bool.eq_false_iff.mpr hany)) a ha
    rw [h0]
    simp

theorem upsertRow_other (tbl : LabelsTable) (pid : ℤ) (lab : Str) :
    ∀ r ∈ upsertRow tbl pid lab, r.1 ≠ pid → r ∈ tbl := by
  intro r hr hkey
  unfold upsertRow at hr
  by_cases hany : tbl.any (fun r => decide (r.1 = pid)) = true
  · rw [if_pos hany] at hr
    obtain ⟨a, ha, hfa⟩ := List.mem_map.mp hr
    by_cases hak : a.1 = pid
    · rw [if_pos hak] at hfa
      exact absurd (by rw [← hfa]) hkey
    · rw [if_neg hak] at hfa
      rw [← hfa]
      exact ha
  · rw [if_neg hany] at hr
    rcases List.mem_append.mp hr with h | h
    · exact h
    · simp only [List.mem_singleton] at h
      exact absurd (by rw [h]) hkey

/-- C10: a label whose stripped, lower-cased form is neither `useful` nor
`useless` raises `ValueError` before any database write (the table is not
touched — the model returns the error without a successor table); a valid
label is stored in stripped lower-cased form, the table keeps at most one
label row per item (the row count for the post becomes exactly one when it
was at most one, as the unique index guarantees), and rows of other posts
are untouched. -/
theorem c10_upsert_label_spec (tbl : LabelsTable) (pid : ℤ) (label : Str) :
    (pyLower (pyStrip label) ≠ "useful".data →
     pyLower (pyStrip label) ≠ "useless".data →
      upsert_label tbl pid label = .error "invalid label") ∧
    (pyLower (pyStrip label) = "useful".data ∨
     pyLower (pyStrip label) = "useless".data →
      ∃ tbl', upsert_label tbl pid label = .ok tbl' ∧
        (∀ r ∈ tbl', r.1 = pid → r.2 = pyLower (pyStrip label)) ∧
        (tbl.countP (fun r => decide (r.1 = pid)) ≤ 1 →
          tbl'.countP (fun r => decide (r.1 = pid)) = 1) ∧
        (∀ r ∈ tbl', r.1 ≠ pid → r ∈ tbl)) := by
  constructor
  · intro h1 h2
    unfold upsert_label
    rw [if_neg]
    push_neg
    exact ⟨h1, h2⟩
  · intro hvalid
    refine ⟨upsertRow tbl pid (pyLower (pyStrip label)), ?_, ?_, ?_, ?_⟩
    · unfold upsert_label
      rw [if_pos hvalid]
    · exact upsertRow_key_val tbl pid _
    · exact upsertRow_count tbl pid _
    · exact upsertRow_other tbl pid _

theorem c10_witness :
    (∃ tbl', upsert_label [] 5 "  Useful ".data = .ok tbl' ∧
      ∀ r ∈ tbl', r.1 = 5 → r.2 = "useful".data) ∧
    upsert_label [(5, "useful".data)] 5 "bogus".data = .error "invalid label" := by
  constructor
  · obtain ⟨t1, he1, hval, _, _⟩ :=
      (c10_upsert_label_spec [] 5 "  Useful ".data).2 (by left; decide)
    have hn : pyLower (pyStrip "  Useful ".data) = "useful".data := by decide
    exact ⟨t1, he1, by rw [← hn]; exact hval⟩
  · exact (c10_upsert_label_spec [(5, "useful".data)] 5 "bogus".data).1
      (by decide) (by decide)

/-! ## URL canonicalization (`utils.py`, `canonicalize_url`)

`canonicalize_url` is built from `urllib.parse`'s `urlparse`, `parse_qsl`,
`urlencode` and `urlunparse`; those are modelled below down to the byte
level of percent-encoding (UTF-8 plus `%XX` escapes, `+` for space), so
that the query round-trip `parse_qsl(urlencode(pairs)) = pairs` is a
theorem rather than an assumption.  Not modelled: IPv6 bracket
validation (raises in CPython) and replacement-character placement on
malformed escapes, neither of which `canonicalize_url` can reach with the
strings it feeds back. -/

theorem Char.toNat_lt_unicode (c : Char) : c.toNat < 0x110000 := by
  have hv := c.valid
  have h : c.toNat = c.val.toNat := rfl
  rw [h]
  rcases hv with h1 | h1
  · omega
  · omega

/-- UTF-8 encoding of one character. -/
def utf8EncodeChar (c : Char) : List ℕ :=
  let n := c.toNat
  if n < 0x80 then [n]
  else if n < 0x800 then [0xC0 + n / 64, 0x80 + n % 64]
  else if n < 0x10000 then
    [0xE0 + n / 4096, 0x80 + (n / 64) % 64, 0x80 + n % 64]
  else
    [0xF0 + n / 0x40000, 0x80 + (n / 4096) % 64, 0x80 + (n / 64) % 64, 0x80 + n % 64]

/-- One UTF-8 decoding step on the leading byte: the decoded character
(U+FFFD replacement on malformed prefixes, which the well-formed byte runs
produced by percent-decoding never exercise) and the remaining bytes. -/
def utf8DecodeStep (b0 : ℕ) (bs : List ℕ) : Char × List ℕ :=
  if b0 < 0x80 then (Char.ofNat b0, bs)
  else if 0xC2 ≤ b0 ∧ b0 < 0xE0 then
    match bs with
    | b1 :: bs2 =>
      if 0x80 ≤ b1 ∧ b1 < 0xC0 then
        (Char.ofNat ((b0 - 0xC0) * 64 + (b1 - 0x80)), bs2)
      else ('\uFFFD', b1 :: bs2)
    | [] => ('\uFFFD', [])
  else if 0xE0 ≤ b0 ∧ b0 < 0xF0 then
    match bs with
    | b1 :: b2 :: bs3 =>
      if (0x80 ≤ b1 ∧ b1 < 0xC0) ∧ (0x80 ≤ b2 ∧ b2 < 0xC0) then
        (Char.ofNat ((b0 - 0xE0) * 4096 + (b1 - 0x80) * 64 + (b2 - 0x80)), bs3)
      else ('\uFFFD', b1 :: b2 :: bs3)
    | bs' => ('\uFFFD', bs')
  else if 0xF0 ≤ b0 ∧ b0 < 0xF8 then
    match bs with
    | b1 :: b2 :: b3 :: bs4 =>
      if (0x80 ≤ b1 ∧ b1 < 0xC0) ∧ (0x80 ≤ b2 ∧ b2 < 0xC0) ∧
          (0x80 ≤ b3 ∧ b3 < 0xC0) then
        (Char.ofNat ((b0 - 0xF0) * 0x40000 + (b1 - 0x80) * 4096 +
          (b2 - 0x80) * 64 + (b3 - 0x80)), bs4)
      else ('\uFFFD', b1 :: b2 :: b3 :: bs4)
    | bs' => ('\uFFFD', bs')
  else ('\uFFFD', bs)

theorem utf8DecodeStep_length (b0 : ℕ) (bs : List ℕ) :
    (utf8DecodeStep b0 bs).2.length ≤ bs.length := by
  unfold utf8DecodeStep
  repeat' split
  all_goals simp_arith [List.length_cons]

/-- UTF-8 decoding of a byte list, one step at a time. -/
def utf8Decode : List ℕ → Str
  | [] => []
  | b0 :: bs =>
    (utf8DecodeStep b0 bs).1 :: utf8Decode (utf8DecodeStep b0 bs).2
termination_by l => l.length
decreasing_by
  have := utf8DecodeStep_length b0 bs
  simp only [List.length_cons]
  omega

theorem utf8EncodeChar_lt (c : Char) : ∀ b ∈ utf8EncodeChar c, b < 256 := by
  intro b hb
  have hn := Char.toNat_lt_unicode c
  simp only [utf8EncodeChar] at hb
  split at hb
  · simp at hb
    omega
  · split at hb
    · simp at hb
      rcases hb with h | h <;> omega
    · split at hb
      · simp at hb
        rcases hb with h | h | h <;> omega
      · simp at hb
        rcases hb with h | h | h | h <;> omega

theorem utf8Decode_cons (b0 : ℕ) (bs : List ℕ) :
    utf8Decode (b0 :: bs) =
      (utf8DecodeStep b0 bs).1 :: utf8Decode (utf8DecodeStep b0 bs).2 := by
  rw [utf8Decode]

/-- Decoding a character's encoding prepended to any byte tail yields the
character followed by the decoded tail. -/
theorem utf8Decode_encode_cons (c : Char) (B : List ℕ) :
    utf8Decode (utf8EncodeChar c ++ B) = c :: utf8Decode B := by
  have hn := Char.toNat_lt_unicode c
  have hofn := Char.ofNat_toNat c
  simp only [utf8EncodeChar]
  by_cases h1 : c.toNat < 0x80
  · rw [if_pos h1, List.cons_append, List.nil_append, utf8Decode_cons]
    have hstep : utf8DecodeStep c.toNat B = (Char.ofNat c.toNat, B) := by
      unfold utf8DecodeStep
      rw [if_pos h1]
    rw [hstep, hofn]
  · rw [if_neg h1]
    by_cases h2 : c.toNat < 0x800
    · rw [if_pos h2, List.cons_append, List.cons_append, List.nil_append,
        utf8Decode_cons]
      have hstep : utf8DecodeStep (0xC0 + c.toNat / 64) ((0x80 + c.toNat % 64) :: B) =
          (Char.ofNat c.toNat, B) := by
        unfold utf8DecodeStep
        rw [if_neg (by omega), if_pos (by omega)]
        dsimp only
        rw [if_pos (by omega)]
        have harg : (0xC0 + c.toNat / 64 - 0xC0) * 64 + (0x80 + c.toNat % 64 - 0x80) =
            c.toNat := by omega
        rw [harg]
      rw [hstep, hofn]
    · rw [if_neg h2]
      by_cases h3 : c.toNat < 0x10000
      · rw [if_pos h3, List.cons_append, List.cons_append, List.cons_append,
          List.nil_append, utf8Decode_cons]
        have hstep : utf8DecodeStep (0xE0 + c.toNat / 4096)
            ((0x80 + c.toNat / 64 % 64) :: (0x80 + c.toNat % 64) :: B) =
            (Char.ofNat c.toNat, B) := by
          unfold utf8DecodeStep
          rw [if_neg (by omega), if_neg (by omega), if_pos (by omega)]
          dsimp only
          rw [if_pos (by omega)]
          have harg : (0xE0 + c.toNat / 4096 - 0xE0) * 4096 +
              (0x80 + c.toNat / 64 % 64 - 0x80) * 64 + (0x80 + c.toNat % 64 - 0x80) =
              c.toNat := by omega
          rw [harg]
        rw [hstep, hofn]
      · rw [if_neg h3, List.cons_append, List.cons_append, List.cons_append,
          List.cons_append, List.nil_append, utf8Decode_cons]
        have hstep : utf8DecodeStep (0xF0 + c.toNat / 0x40000)
            ((0x80 + c.toNat / 4096 % 64) :: (0x80 + c.toNat / 64 % 64) ::
              (0x80 + c.toNat % 64) :: B) = (Char.ofNat c.toNat, B) := by
          unfold utf8DecodeStep
          rw [if_neg (by omega), if_neg (by omega), if_neg (by omega),
            if_pos (by omega)]
          dsimp only
          rw [if_pos (by omega)]
          have harg : (0xF0 + c.toNat / 0x40000 - 0xF0) * 0x40000 +
              (0x80 + c.toNat / 4096 % 64 - 0x80) * 4096 +
              (0x80 + c.toNat / 64 % 64 - 0x80) * 64 + (0x80 + c.toNat % 64 - 0x80) =
              c.toNat := by omega
          rw [harg]
        rw [hstep, hofn]
/-- Upper-case hex digit, as `'%%%02X'` formatting uses. -/
def toHexDigitChar (d : ℕ) : Char := ("0123456789ABCDEF".data).getD d '0'

/-- Hex digit value, case-insensitive, as `unquote` accepts (digits,
`A`-`F` and `a`-`f` by code point). -/
def fromHexDigit (c : Char) : Option ℕ :=
  if 48 ≤ c.toNat ∧ c.toNat ≤ 57 then some (c.toNat - 48)
  else if 65 ≤ c.toNat ∧ c.toNat ≤ 70 then some (c.toNat - 55)
  else if 97 ≤ c.toNat ∧ c.toNat ≤ 102 then some (c.toNat - 87)
  else none

/-- One percent-escaped byte, `%XX`. -/
def pctEncodeByte (b : ℕ) : Str := ['%', toHexDigitChar (b / 16), toHexDigitChar (b % 16)]

theorem fromHex_toHex : ∀ d : ℕ, d < 16 → fromHexDigit (toHexDigitChar d) = some d := by
  decide

/-- The characters `quote` never escapes (`_ALWAYS_SAFE` with
`safe=''`). -/
def isUrlSafe (c : Char) : Bool :=
  ('A' ≤ c ∧ c ≤ 'Z') ∨ ('a' ≤ c ∧ c ≤ 'z') ∨ ('0' ≤ c ∧ c ≤ '9') ∨
    c = '_' ∨ c = '.' ∨ c = '-' ∨ c = '~'

/-- `urllib.parse.quote_plus` on one character: safe characters pass
through, space becomes `+`, everything else is percent-escaped per UTF-8
byte. -/
def quoteChar (c : Char) : Str :=
  if isUrlSafe c then [c]
  else if c = ' ' then ['+']
  else ((utf8EncodeChar c).map pctEncodeByte).flatten

/-- `urllib.parse.quote_plus` (with the default empty `safe` set). -/
def quote_plus (s : Str) : Str := (s.map quoteChar).flatten

/-- The maximal leading run of valid `%XX` groups: its byte values and
the remainder of the string (the granularity at which `unquote` feeds
bytes to the UTF-8 decoder). -/
def splitPctRun : Str → List ℕ × Str
  | '%' :: h1 :: h2 :: rest =>
    match fromHexDigit h1 with
    | none => ([], '%' :: h1 :: h2 :: rest)
    | some d1 =>
      match fromHexDigit h2 with
      | none => ([], '%' :: h1 :: h2 :: rest)
      | some d2 => ((d1 * 16 + d2) :: (splitPctRun rest).1, (splitPctRun rest).2)
  | s => ([], s)

theorem splitPctRun_len (s : Str) :
    (splitPctRun s).2.length + 3 * (splitPctRun s).1.length = s.length := by
  induction s using splitPctRun.induct with
  | case1 h1 h2 rest hh1 =>
    simp only [splitPctRun, hh1]
    simp
  | case2 h1 h2 rest d1 he1 he2 =>
    simp only [splitPctRun, he1, he2]
    simp
  | case3 h1 h2 rest d1 he1 d2 he2 ih =>
    simp only [splitPctRun, he1, he2, List.length_cons]
    omega
  | case4 s hs =>
    rw [splitPctRun.eq_def]
    split
    · next h1 h2 r =>
      exact absurd rfl (hs h1 h2 r)
    · rfl
/-- `unquote` driving loop: each maximal valid `%XX` run is hex-decoded
and UTF-8-decoded as one byte chunk; every other character (including an
invalid escape's characters) passes through unchanged. -/
def unquoteScan : Str → Str
  | [] => []
  | c :: rest =>
    if (splitPctRun (c :: rest)).1 = [] then c :: unquoteScan rest
    else
      utf8Decode (splitPctRun (c :: rest)).1 ++ unquoteScan (splitPctRun (c :: rest)).2
termination_by s => s.length
decreasing_by
  · simp only [List.length_cons]
    omega
  · have hlen := splitPctRun_len (c :: rest)
    have hpos : 0 < (splitPctRun (c :: rest)).1.length :=
      List.length_pos.mpr (by assumption)
    simp only [List.length_cons] at hlen ⊢
    omega

/-- `unquote_plus`: `+` becomes space, then escapes are decoded. -/
def plusToSpace (c : Char) : Char := if c = '+' then ' ' else c

def unquote_plus (s : Str) : Str := unquoteScan (s.map plusToSpace)

theorem splitPctRun_cons_ne {c : Char} (t : Str) (h : c ≠ '%') :
    splitPctRun (c :: t) = ([], c :: t) := by
  rw [splitPctRun.eq_def]
  split
  · next h1 h2 r heq =>
    rw [List.cons.injEq] at heq
    exact absurd heq.1 h
  · rfl

/-- Splitting off the leading percent-run and scanning the remainder is
the same as scanning the whole string. -/
theorem unquoteScan_split (Q : Str) :
    utf8Decode (splitPctRun Q).1 ++ unquoteScan (splitPctRun Q).2 = unquoteScan Q := by
  induction Q using splitPctRun.induct with
  | case1 h1 h2 rest hh1 =>
    simp only [splitPctRun, hh1]
    rw [utf8Decode, List.nil_append]
  | case2 h1 h2 rest d1 he1 he2 =>
    simp only [splitPctRun, he1, he2]
    rw [utf8Decode, List.nil_append]
  | case3 h1 h2 rest d1 he1 d2 he2 _ =>
    rw [unquoteScan]
    rw [if_neg (by simp only [splitPctRun, he1, he2]; simp)]
  | case4 s hs =>
    rcases s with _ | ⟨c, t⟩
    · rw [splitPctRun]
      · rw [utf8Decode, List.nil_append]
      · exact hs
    · have hc : splitPctRun (c :: t) = ([], c :: t) := by
        rw [splitPctRun.eq_def]
        split
        · next h1 h2 r heq =>
          exact absurd heq (hs h1 h2 r)
        · rfl
      rw [hc]
      rw [utf8Decode, List.nil_append]
theorem toHex_ne_plus : ∀ d : ℕ, d < 16 → toHexDigitChar d ≠ '+' := by decide

theorem utf8EncodeChar_ne_nil (c : Char) : utf8EncodeChar c ≠ [] := by
  simp only [utf8EncodeChar]
  repeat' split
  all_goals simp

theorem splitPctRun_group (b : ℕ) (hb : b < 256) (s : Str) :
    splitPctRun (pctEncodeByte b ++ s) = (b :: (splitPctRun s).1, (splitPctRun s).2) := by
  have h1 := fromHex_toHex (b / 16) (by omega)
  have h2 := fromHex_toHex (b % 16) (by omega)
  simp only [pctEncodeByte, List.cons_append, List.nil_append, splitPctRun, h1, h2]
  have harith : b / 16 * 16 + b % 16 = b := by omega
  rw [harith]
  rfl

theorem splitPctRun_groups (bs : List ℕ) (hb : ∀ b ∈ bs, b < 256) (s : Str) :
    splitPctRun ((bs.map pctEncodeByte).flatten ++ s) =
      (bs ++ (splitPctRun s).1, (splitPctRun s).2) := by
  induction bs with
  | nil => simp
  | cons b bs ih =>
    simp only [List.map_cons, List.flatten_cons, List.append_assoc]
    rw [splitPctRun_group b (hb b (by simp)) _, ih (fun x hx => hb x (by simp [hx]))]
    rfl

theorem pct_map_plus (b : ℕ) (hb : b < 256) :
    (pctEncodeByte b).map plusToSpace = pctEncodeByte b := by
  have e1 : plusToSpace '%' = '%' := rfl
  have e2 : plusToSpace (toHexDigitChar (b / 16)) = toHexDigitChar (b / 16) := by
    unfold plusToSpace
    rw [if_neg (toHex_ne_plus (b / 16) (by omega))]
  have e3 : plusToSpace (toHexDigitChar (b % 16)) = toHexDigitChar (b % 16) := by
    unfold plusToSpace
    rw [if_neg (toHex_ne_plus (b % 16) (by omega))]
  simp only [pctEncodeByte, List.map_cons, List.map_nil, e1, e2, e3]

/-- `quote_plus` followed by the `+`-to-space mapping, characterwise:
space survives as a literal space, everything else as in `quoteChar`. -/
def quoteChar2 (c : Char) : Str :=
  if isUrlSafe c then [c] else if c = ' ' then [' ']
  else ((utf8EncodeChar c).map pctEncodeByte).flatten

theorem quoteChar_map_plus (c : Char) :
    (quoteChar c).map plusToSpace = quoteChar2 c := by
  unfold quoteChar quoteChar2
  by_cases h1 : isUrlSafe c
  · rw [if_pos h1, if_pos h1]
    have hne : c ≠ '+' := fun hc => by
      rw [hc] at h1
      exact absurd h1 (by decide)
    simp [plusToSpace, hne]
  · rw [if_neg h1, if_neg h1]
    by_cases h2 : c = ' '
    · rw [if_pos h2, if_pos h2]
      simp [plusToSpace]
    · rw [if_neg h2, if_neg h2, List.map_flatten, List.map_map]
      congr 1
      exact List.map_congr_left fun b hb => pct_map_plus b (utf8EncodeChar_lt c b hb)

theorem unquoteScan_quoteChar2 : ∀ s : Str, unquoteScan ((s.map quoteChar2).flatten) = s
  | [] => by
    rw [List.map_nil, List.flatten_nil, unquoteScan]
  | c :: r => by
    rw [List.map_cons, List.flatten_cons]
    by_cases h1 : isUrlSafe c
    · have hq : quoteChar2 c = [c] := by rw [quoteChar2, if_pos h1]
      have hc : c ≠ '%' := fun hc => by
        rw [hc] at h1
        exact absurd h1 (by decide)
      rw [hq, List.singleton_append, unquoteScan,
        if_pos (by rw [splitPctRun_cons_ne _ hc]),
        unquoteScan_quoteChar2 r]
    · by_cases h2 : c = ' '
      · have hq : quoteChar2 c = [' '] := by rw [quoteChar2, if_neg h1, if_pos h2]
        rw [hq, List.singleton_append, unquoteScan,
          if_pos (by rw [splitPctRun_cons_ne _ (by decide)]),
          unquoteScan_quoteChar2 r, h2]
      · have hq : quoteChar2 c = ((utf8EncodeChar c).map pctEncodeByte).flatten := by
          rw [quoteChar2, if_neg h1, if_neg h2]
        rw [hq]
        have hsplit := splitPctRun_groups (utf8EncodeChar c) (utf8EncodeChar_lt c)
          ((r.map quoteChar2).flatten)
        rcases henc : utf8EncodeChar c with _ | ⟨b, bs⟩
        · exact absurd henc (utf8EncodeChar_ne_nil c)
        · rw [henc] at hsplit
          rw [List.map_cons, List.flatten_cons, List.append_assoc]
          simp only [pctEncodeByte, List.cons_append, List.nil_append,
            List.map_cons, List.flatten_cons, List.append_assoc] at hsplit ⊢
          rw [unquoteScan, if_neg (by rw [hsplit]; simp), hsplit, ← List.cons_append,
            ← henc, utf8Decode_encode_cons, List.cons_append, unquoteScan_split,
            unquoteScan_quoteChar2 r]

/-- Percent-encoding round trip: `unquote_plus(quote_plus(s)) == s`. -/
theorem unquote_plus_quote_plus (s : Str) : unquote_plus (quote_plus s) = s := by
  unfold unquote_plus quote_plus
  rw [List.map_flatten, List.map_map]
  have hmap : List.map (List.map plusToSpace ∘ quoteChar) s = List.map quoteChar2 s :=
    List.map_congr_left fun c _ => quoteChar_map_plus c
  rw [hmap, unquoteScan_quoteChar2]
/-- Python `str.split(sep)` (every occurrence; `"".split(sep) == ['']`). -/
def splitOnAll (sep : Char) : Str → List Str
  | [] => [[]]
  | c :: rest =>
    if c = sep then [] :: splitOnAll sep rest
    else
      match splitOnAll sep rest with
      | f :: fs => (c :: f) :: fs
      | [] => [[c]]

/-- Python `str.split(sep, 1)`: the part before the first `sep` and,
when `sep` occurs, the part after it. -/
def splitOnFirst (sep : Char) : Str → Str × Option Str
  | [] => ([], none)
  | c :: rest =>
    if c = sep then ([], some rest)
    else (c :: (splitOnFirst sep rest).1, (splitOnFirst sep rest).2)

/-- `urllib.parse.parse_qsl(qs, keep_blank_values=True)`. -/
def parse_qsl (qs : Str) : List (Str × Str) :=
  ((splitOnAll '&' qs).filter (fun f => ¬ f.isEmpty)).map fun field =>
    match splitOnFirst '=' field with
    | (name, some value) => (unquote_plus name, unquote_plus value)
    | (name, none) => (unquote_plus name, [])

/-- `'&'.join(...)`, the field joiner inside `urlencode`. -/
def joinAmp : List Str → Str
  | [] => []
  | [f] => f
  | f :: fs => f ++ '&' :: joinAmp fs

/-- `urllib.parse.urlencode` with its default `quote_via=quote_plus`. -/
def urlencode (l : List (Str × Str)) : Str :=
  joinAmp (l.map fun p => quote_plus p.1 ++ '=' :: quote_plus p.2)

theorem toHex_ne_amp_eq : ∀ d : ℕ, d < 16 →
    toHexDigitChar d ≠ '&' ∧ toHexDigitChar d ≠ '=' := by decide

/-- `quote_plus` output never contains a field or pair separator. -/
theorem quote_plus_not_amp_eq (s : Str) : ∀ x ∈ quote_plus s, x ≠ '&' ∧ x ≠ '=' := by
  intro x hx
  unfold quote_plus at hx
  obtain ⟨chunk, hchunk, hxc⟩ := List.mem_flatten.mp hx
  obtain ⟨c, _, rfl⟩ := List.mem_map.mp hchunk
  unfold quoteChar at hxc
  by_cases h1 : isUrlSafe c
  · rw [if_pos h1] at hxc
    simp only [List.mem_singleton] at hxc
    subst hxc
    constructor <;> intro hc <;> rw [hc] at h1 <;> exact absurd h1 (by decide)
  · rw [if_neg h1] at hxc
    by_cases h2 : c = ' '
    · rw [if_pos h2] at hxc
      simp only [List.mem_singleton] at hxc
      subst hxc
      exact ⟨by decide, by decide⟩
    · rw [if_neg h2] at hxc
      obtain ⟨grp, hgrp, hxg⟩ := List.mem_flatten.mp hxc
      obtain ⟨b, hb, rfl⟩ := List.mem_map.mp hgrp
      have hb256 := utf8EncodeChar_lt c b hb
      simp only [pctEncodeByte, List.mem_cons, List.not_mem_nil, or_false] at hxg
      rcases hxg with rfl | rfl | rfl
      · exact ⟨by decide, by decide⟩
      · exact toHex_ne_amp_eq (b / 16) (by omega)
      · exact toHex_ne_amp_eq (b % 16) (by omega)

theorem splitOnAll_no_sep {sep : Char} : ∀ {s : Str}, sep ∉ s →
    splitOnAll sep s = [s]
  | [], _ => rfl
  | c :: rest, h => by
    rw [splitOnAll, if_neg (fun hc => h (List.mem_cons.mpr (Or.inl hc.symm))),
      splitOnAll_no_sep (fun hr => h (List.mem_cons_of_mem c hr))]

theorem splitOnAll_append {sep : Char} : ∀ {A : Str}, sep ∉ A → ∀ (t : Str),
    splitOnAll sep (A ++ sep :: t) = A :: splitOnAll sep t
  | [], _, t => by
    rw [List.nil_append, splitOnAll, if_pos rfl]
  | c :: A, h, t => by
    rw [List.cons_append, splitOnAll,
      if_neg (fun hc => h (List.mem_cons.mpr (Or.inl hc.symm))),
      splitOnAll_append (fun hr => h (List.mem_cons_of_mem c hr)) t]

theorem splitOnFirst_no_sep {sep : Char} : ∀ {s : Str}, sep ∉ s →
    splitOnFirst sep s = (s, none)
  | [], _ => rfl
  | c :: rest, h => by
    rw [splitOnFirst, if_neg (fun hc => h (List.mem_cons.mpr (Or.inl hc.symm))),
      splitOnFirst_no_sep (fun hr => h (List.mem_cons_of_mem c hr))]

theorem splitOnFirst_append {sep : Char} : ∀ {A : Str}, sep ∉ A → ∀ (B : Str),
    splitOnFirst sep (A ++ sep :: B) = (A, some B)
  | [], _, B => by
    rw [List.nil_append, splitOnFirst, if_pos rfl]
  | c :: A, h, B => by
    rw [List.cons_append, splitOnFirst,
      if_neg (fun hc => h (List.mem_cons.mpr (Or.inl hc.symm))),
      splitOnFirst_append (fun hr => h (List.mem_cons_of_mem c hr)) B]

/-- One encoded field decodes back to its pair. -/
theorem parse_field (k v : Str) :
    (match splitOnFirst '=' (quote_plus k ++ '=' :: quote_plus v) with
      | (name, some value) => (unquote_plus name, unquote_plus value)
      | (name, none) => (unquote_plus name, [])) = (k, v) := by
  rw [splitOnFirst_append (fun hm => ((quote_plus_not_amp_eq k '=' hm).2) rfl)]
  simp only
  rw [unquote_plus_quote_plus, unquote_plus_quote_plus]

theorem field_no_amp (p : Str × Str) :
    '&' ∉ (quote_plus p.1 ++ '=' :: quote_plus p.2) := by
  intro hm
  rcases List.mem_append.mp hm with h | h
  · exact (quote_plus_not_amp_eq p.1 '&' h).1 rfl
  · rcases List.mem_cons.mp h with h1 | h1
    · exact absurd h1 (by decide)
    · exact (quote_plus_not_amp_eq p.2 '&' h1).1 rfl

theorem field_ne_nil (p : Str × Str) :
    (quote_plus p.1 ++ '=' :: quote_plus p.2).isEmpty = false := by
  rcases h : quote_plus p.1 with _ | _ <;> simp [h]

theorem parse_qsl_field_cons (A t : Str) (hA : '&' ∉ A) (hne : A.isEmpty = false) :
    parse_qsl (A ++ '&' :: t) =
      (match splitOnFirst '=' A with
        | (name, some value) => (unquote_plus name, unquote_plus value)
        | (name, none) => (unquote_plus name, [])) :: parse_qsl t := by
  unfold parse_qsl
  rw [splitOnAll_append hA, List.filter_cons_of_pos (by simp [hne]), List.map_cons]

/-- C9 core identity: `parse_qsl(urlencode(pairs)) == pairs`. -/
theorem parse_qsl_urlencode : ∀ l : List (Str × Str), parse_qsl (urlencode l) = l
  | [] => rfl
  | [p] => by
    unfold urlencode parse_qsl
    rw [List.map_cons, List.map_nil, joinAmp, splitOnAll_no_sep (field_no_amp p),
      List.filter_cons_of_pos (by simp [field_ne_nil p]), List.filter_nil,
      List.map_cons, List.map_nil]
    simp only [parse_field]
  | p :: q :: l => by
    have h1 : urlencode (p :: q :: l) =
        (quote_plus p.1 ++ '=' :: quote_plus p.2) ++ '&' :: urlencode (q :: l) := rfl
    rw [h1, parse_qsl_field_cons _ _ (field_no_amp p) (field_ne_nil p), parse_field,
      parse_qsl_urlencode (q :: l)]
/-- The 6-tuple returned by `urllib.parse.urlparse`. -/
structure ParseResult where
  scheme : Str
  netloc : Str
  path : Str
  params : Str
  query : Str
  fragment : Str
deriving DecidableEq

/-- `_UNSAFE_URL_BYTES_TO_REMOVE`: tab, CR and LF are stripped from the
URL before splitting. -/
def removeUnsafe (s : Str) : Str :=
  s.filter (fun c => ¬(c = '\t' ∨ c = '\r' ∨ c = '\n'))

def isAsciiAlpha (c : Char) : Bool :=
  ('A' ≤ c ∧ c ≤ 'Z') ∨ ('a' ≤ c ∧ c ≤ 'z')

/-- `scheme_chars`: letters, digits and `+-.`. -/
def isSchemeChar (c : Char) : Bool :=
  isAsciiAlpha c ∨ ('0' ≤ c ∧ c ≤ '9') ∨ c = '+' ∨ c = '-' ∨ c = '.'

/-- Scheme extraction in `urlsplit`: a prefix before the first `:` that
starts with an ASCII letter and consists of scheme characters is removed
and lower-cased; otherwise the URL is unchanged. -/
def schemeOk (pre : Str) : Bool :=
  (match pre with | c :: _ => isAsciiAlpha c | [] => false) && pre.all isSchemeChar

def splitScheme (s : Str) : Str × Str :=
  match splitOnFirst ':' s with
  | (pre, some post) =>
    if schemeOk pre then (pyLower pre, post) else ([], s)
  | (_, none) => ([], s)

def isNetlocDelim (c : Char) : Bool := c = '/' ∨ c = '?' ∨ c = '#'

/-- `_splitnetloc`, applied when `url[:2] == '//'`: the netloc is the
stretch after the `//` up to the next `/`, `?` or `#`, the remainder
starts at that delimiter. -/
def splitNetloc (s : Str) : Str × Str :=
  if s.take 2 = ['/', '/'] then
    ((s.drop 2).takeWhile (fun c => ¬ isNetlocDelim c),
      (s.drop 2).dropWhile (fun c => ¬ isNetlocDelim c))
  else ([], s)

/-- The last path segment: everything after the final `/` (the whole
path when it has no `/`). -/
def lastSeg (p : Str) : Str := (p.reverse.takeWhile (fun c => ¬ c = '/')).reverse

/-- `_splitparams`: a `;` is searched only in the last path segment. -/
def splitParams (p : Str) : Str × Str :=
  match splitOnFirst ';' (lastSeg p) with
  | (a, some b) => (p.take (p.length - (lastSeg p).length) ++ a, b)
  | (_, none) => (p, [])

/-- The rest of the URL once the scheme has been removed. -/
def afterScheme (url : Str) : Str := (splitScheme (removeUnsafe url)).2

/-- The rest once the netloc has also been removed. -/
def afterNetloc (url : Str) : Str := (splitNetloc (afterScheme url)).2

/-- What is left after the fragment has been split off (`partition('#')`). -/
def beforeFrag (url : Str) : Str := (splitOnFirst '#' (afterNetloc url)).1

/-- What is left after the query has also been split off. -/
def beforeQuery (url : Str) : Str := (splitOnFirst '?' (beforeFrag url)).1

/-- `urllib.parse.urlparse`: scheme, then netloc, then fragment, then
query, then path parameters (IPv6 bracket validation not modelled). -/
def urlparse (url : Str) : ParseResult :=
  ⟨(splitScheme (removeUnsafe url)).1,
    (splitNetloc (afterScheme url)).1,
    (splitParams (beforeQuery url)).1,
    (splitParams (beforeQuery url)).2,
    ((splitOnFirst '?' (beforeFrag url)).2).getD [],
    ((splitOnFirst '#' (afterNetloc url)).2).getD []⟩

/-- `urlunparse` step 1: re-attach the path parameters. -/
def urlunparse0 (p : ParseResult) : Str :=
  if p.params.isEmpty then p.path else p.path ++ ';' :: p.params

/-- `urlunsplit` step: re-attach the netloc behind `//`. -/
def urlunparse1 (p : ParseResult) : Str :=
  if ¬ p.netloc.isEmpty ∨
      (¬ (urlunparse0 p).isEmpty ∧ (urlunparse0 p).take 2 = ['/', '/']) then
    '/' :: '/' :: (p.netloc ++
      (if ¬ (urlunparse0 p).isEmpty ∧ (urlunparse0 p).take 1 ≠ ['/'] then
        '/' :: urlunparse0 p else urlunparse0 p))
  else urlunparse0 p

/-- `urlunsplit` step: re-attach the scheme. -/
def urlunparse2 (p : ParseResult) : Str :=
  if ¬ p.scheme.isEmpty then p.scheme ++ ':' :: urlunparse1 p else urlunparse1 p

/-- `urlunsplit` step: re-attach the query. -/
def urlunparse3 (p : ParseResult) : Str :=
  if ¬ p.query.isEmpty then urlunparse2 p ++ '?' :: p.query else urlunparse2 p

/-- `urllib.parse.urlunparse` ∘ `urlunsplit`. -/
def urlunparse (p : ParseResult) : Str :=
  if ¬ p.fragment.isEmpty then urlunparse3 p ++ '#' :: p.fragment else urlunparse3 p

/-- `canonicalize_url` (utils.py lines 20-25): strip, parse, drop every
query parameter whose name starts with `utm_` (`keep_blank_values=True`),
re-encode the rest, and unparse with an empty fragment. -/
def canonicalize_url (url : Str) : Str :=
  let u := pyStrip url
  let p := urlparse u
  let query := (parse_qsl p.query).filter (fun kv => ¬ ("utm_".data <+: kv.1))
  urlunparse ⟨p.scheme, p.netloc, p.path, p.params, urlencode query, []⟩
/-- Characters that can never be mistaken for a query, fragment or
whitespace delimiter when a canonical URL is re-parsed. -/
abbrev safeC (x : Char) : Prop :=
  x ≠ '?' ∧ x ≠ '#' ∧ x ≠ '\t' ∧ x ≠ '\r' ∧ x ≠ '\n'

theorem toLower_ne_small (c d : Char) (hne : c ≠ d) (hd : d.toNat < 97) :
    Char.toLower c ≠ d := by
  unfold Char.toLower
  by_cases h : c.toNat ≥ 65 ∧ c.toNat ≤ 90
  · rw [if_pos h]
    intro heq
    have hv : (c.toNat + 32).isValidChar := Or.inl (by omega)
    have h2 : (Char.ofNat (c.toNat + 32)).toNat = c.toNat + 32 := by
      rw [Char.ofNat, dif_pos hv]
      rfl
    rw [heq] at h2
    omega
  · rw [if_neg h]
    exact hne

/-- A percent-free string passes through the unquote scanner unchanged. -/
theorem unquoteScan_no_pct : ∀ s : Str, '%' ∉ s → unquoteScan s = s
  | [], _ => by rw [unquoteScan]
  | c :: rest, h => by
    have hc : c ≠ '%' := fun hc => h (List.mem_cons.mpr (Or.inl hc.symm))
    rw [unquoteScan, if_pos (by rw [splitPctRun_cons_ne rest hc]),
      unquoteScan_no_pct rest (fun hr => h (List.mem_cons_of_mem c hr))]

/-- `unquote_plus` is the identity on strings without `%` or `+`. -/
theorem unquote_plus_id (s : Str) (h1 : '%' ∉ s) (h2 : '+' ∉ s) :
    unquote_plus s = s := by
  unfold unquote_plus
  have hm : s.map plusToSpace = s := by
    have : s.map plusToSpace = s.map id :=
      List.map_congr_left fun c hc => by
        unfold plusToSpace
        rw [if_neg (fun hp => h2 (by rw [← hp]; exact hc))]
        rfl
    rw [this, List.map_id]
  rw [hm, unquoteScan_no_pct s h1]

/-- Inversion for a successful first-occurrence split. -/
theorem splitOnFirst_eq_some {sep : Char} : ∀ {s a b : Str},
    splitOnFirst sep s = (a, some b) → s = a ++ sep :: b ∧ sep ∉ a
  | [], a, b, h => by
    rw [splitOnFirst] at h
    simp at h
  | c :: rest, a, b, h => by
    rw [splitOnFirst] at h
    by_cases hc : c = sep
    · rw [if_pos hc] at h
      simp only [Prod.mk.injEq, Option.some.injEq] at h
      obtain ⟨h1, h2⟩ := h
      subst h1
      subst h2
      exact ⟨by rw [hc]; rfl, by simp⟩
    · rw [if_neg hc] at h
      simp only [Prod.mk.injEq] at h
      obtain ⟨h1, h2⟩ := h
      rcases hr : splitOnFirst sep rest with ⟨a1, o⟩
      rw [hr] at h1 h2
      dsimp only at h1 h2
      subst h2
      obtain ⟨hb1, hb2⟩ := splitOnFirst_eq_some hr
      subst h1
      refine ⟨by rw [List.cons_append, ← hb1], ?_⟩
      intro hm
      rcases List.mem_cons.mp hm with hm | hm
      · exact hc hm.symm
      · exact hb2 hm

/-- Every character kept before the first separator came from the input
and is not the separator. -/
theorem splitOnFirst_fst_prop {sep : Char} : ∀ {s : Str} x,
    x ∈ (splitOnFirst sep s).1 → x ∈ s ∧ x ≠ sep
  | [], x, h => absurd h (by rw [splitOnFirst]; exact List.not_mem_nil x)
  | c :: rest, x, h => by
    rw [splitOnFirst] at h
    by_cases hc : c = sep
    · rw [if_pos hc] at h
      exact absurd h (List.not_mem_nil x)
    · rw [if_neg hc] at h
      dsimp only at h
      rcases List.mem_cons.mp h with h1 | h1
      · exact ⟨List.mem_cons.mpr (Or.inl h1), h1 ▸ hc⟩
      · obtain ⟨hm, hne⟩ := splitOnFirst_fst_prop x h1
        exact ⟨List.mem_cons_of_mem c hm, hne⟩

/-- Characters surviving the unsafe-byte removal came from the input and
are not tab, CR or LF. -/
theorem removeUnsafe_mem {s : Str} {x : Char} (h : x ∈ removeUnsafe s) :
    x ∈ s ∧ x ≠ '\t' ∧ x ≠ '\r' ∧ x ≠ '\n' := by
  have h2 := List.mem_filter.mp h
  refine ⟨h2.1, ?_⟩
  have h3 := of_decide_eq_true h2.2
  exact ⟨fun hc => h3 (Or.inl hc), fun hc => h3 (Or.inr (Or.inl hc)),
    fun hc => h3 (Or.inr (Or.inr hc))⟩

/-- The unsafe-byte removal is the identity on strings free of tab, CR
and LF. -/
theorem removeUnsafe_eq_self {s : Str}
    (h : ∀ x ∈ s, x ≠ '\t' ∧ x ≠ '\r' ∧ x ≠ '\n') : removeUnsafe s = s :=
  List.filter_eq_self.mpr fun x hx =>
    decide_eq_true (by
      intro hc
      rcases hc with hc | hc | hc
      · exact (h x hx).1 hc
      · exact (h x hx).2.1 hc
      · exact (h x hx).2.2 hc)
/-- Characters after the first separator also came from the input. -/
theorem splitOnFirst_snd_mem {sep : Char} {s b : Str}
    (h : (splitOnFirst sep s).2 = some b) {x : Char} (hx : x ∈ b) : x ∈ s := by
  have he : splitOnFirst sep s = ((splitOnFirst sep s).1, some b) := by
    rw [← h]
  obtain ⟨h1, _⟩ := splitOnFirst_eq_some he
  rw [h1]
  exact List.mem_append_right _ (List.mem_cons_of_mem sep hx)

/-- The remainder after scheme removal is a suffix, and whatever was cut
off consists of scheme characters and the terminating colon. -/
theorem splitScheme_decomp (s : Str) :
    ∃ junk, s = junk ++ (splitScheme s).2 ∧
      ∀ x ∈ junk, isSchemeChar x = true ∨ x = ':' := by
  rcases h : splitOnFirst ':' s with ⟨pre, o⟩
  rcases o with _ | post
  · have h2 : splitScheme s = ([], s) := by
      rw [splitScheme, h]
    exact ⟨[], by rw [h2]; rfl, by simp⟩
  · by_cases hok : schemeOk pre = true
    · have h2 : splitScheme s = (pyLower pre, post) := by
        rw [splitScheme, h]
        dsimp only
        rw [if_pos hok]
      obtain ⟨hdec, _⟩ := splitOnFirst_eq_some h
      refine ⟨pre ++ [':'], ?_, ?_⟩
      · rw [h2, List.append_assoc]
        exact hdec
      · intro x hx
        rcases List.mem_append.mp hx with hx | hx
        · left
          have hall := (Bool.and_eq_true_iff.mp hok).2
          exact List.all_eq_true.mp hall x hx
        · right
          simpa using hx
    · have h2 : splitScheme s = ([], s) := by
        rw [splitScheme, h]
        dsimp only
        rw [if_neg hok]
      exact ⟨[], by rw [h2]; rfl, by simp⟩

/-- Every character of an extracted scheme is the lower-casing of a
scheme character. -/
theorem splitScheme_fst (s : Str) :
    ∀ x ∈ (splitScheme s).1, ∃ c, isSchemeChar c = true ∧ x = Char.toLower c := by
  intro x hx
  rcases h : splitOnFirst ':' s with ⟨pre, o⟩
  rcases o with _ | post
  · rw [splitScheme, h] at hx
    exact absurd hx (List.not_mem_nil x)
  · by_cases hok : schemeOk pre = true
    · rw [splitScheme, h] at hx
      dsimp only at hx
      rw [if_pos hok] at hx
      dsimp only at hx
      obtain ⟨c, hc, rfl⟩ := List.mem_map.mp hx
      have hall := (Bool.and_eq_true_iff.mp hok).2
      exact ⟨c, List.all_eq_true.mp hall c hc, rfl⟩
    · rw [splitScheme, h] at hx
      dsimp only at hx
      rw [if_neg hok] at hx
      exact absurd hx (List.not_mem_nil x)

/-- The remainder after netloc removal is a suffix, and whatever was cut
off contains no `?` or `#`. -/
theorem splitNetloc_decomp (s : Str) :
    ∃ junk, s = junk ++ (splitNetloc s).2 ∧ ∀ x ∈ junk, x ≠ '?' ∧ x ≠ '#' := by
  unfold splitNetloc
  by_cases h : s.take 2 = ['/', '/']
  · rw [if_pos h]
    refine ⟨s.take 2 ++ (s.drop 2).takeWhile (fun c => ¬ isNetlocDelim c), ?_, ?_⟩
    · dsimp only
      rw [List.append_assoc, List.takeWhile_append_dropWhile,
        List.take_append_drop]
    · intro x hx
      rcases List.mem_append.mp hx with hx | hx
      · rw [h] at hx
        simp only [List.mem_cons, List.not_mem_nil, or_false] at hx
        rcases hx with rfl | rfl <;> exact ⟨by decide, by decide⟩
      · have hp := List.mem_takeWhile_imp hx
        simp only [decide_eq_true_eq] at hp
        constructor <;> intro hc <;> rw [hc] at hp <;> exact hp (by decide)
  · rw [if_neg h]
    exact ⟨[], rfl, by simp⟩

/-- Every character of an extracted netloc came from the input and is
not a `/`, `?` or `#`. -/
theorem splitNetloc_fst {s : Str} :
    ∀ x ∈ (splitNetloc s).1, x ∈ s ∧ isNetlocDelim x = false := by
  intro x hx
  unfold splitNetloc at hx
  by_cases h : s.take 2 = ['/', '/']
  · rw [if_pos h] at hx
    dsimp only at hx
    refine ⟨List.drop_subset 2 s ((List.takeWhile_sublist _).subset hx), ?_⟩
    have hp := List.mem_takeWhile_imp hx
    simp only [decide_eq_true_eq] at hp
    exact Bool.eq_false_iff.mpr hp
  · rw [if_neg h] at hx
    exact absurd hx (List.not_mem_nil x)

theorem lastSeg_subset {p : Str} : ∀ x ∈ lastSeg p, x ∈ p := fun x hx =>
  List.mem_reverse.mp ((List.takeWhile_sublist _).subset (List.mem_reverse.mp hx))

/-- Both halves of the params split consist of characters of the input. -/
theorem splitParams_subset {p : Str} :
    (∀ x ∈ (splitParams p).1, x ∈ p) ∧ ∀ x ∈ (splitParams p).2, x ∈ p := by
  unfold splitParams
  rcases h : splitOnFirst ';' (lastSeg p) with ⟨a, o⟩
  rcases o with _ | b
  · exact ⟨fun x hx => hx, fun x hx => absurd hx (List.not_mem_nil x)⟩
  · dsimp only
    constructor
    · intro x hx
      rcases List.mem_append.mp hx with hx | hx
      · exact List.take_subset _ p hx
      · refine lastSeg_subset x ?_
        have := @splitOnFirst_fst_prop ';' (lastSeg p) x
        rw [h] at this
        exact (this hx).1
    · intro x hx
      refine lastSeg_subset x ?_
      exact splitOnFirst_snd_mem (by rw [h]) hx
theorem toHex_safeC : ∀ d : ℕ, d < 16 → safeC (toHexDigitChar d) := by decide

/-- `quote_plus` output never contains `?`, `#` or removed whitespace. -/
theorem quote_plus_safeC (s : Str) : ∀ x ∈ quote_plus s, safeC x := by
  intro x hx
  unfold quote_plus at hx
  obtain ⟨chunk, hchunk, hxc⟩ := List.mem_flatten.mp hx
  obtain ⟨c, _, rfl⟩ := List.mem_map.mp hchunk
  unfold quoteChar at hxc
  by_cases h1 : isUrlSafe c
  · rw [if_pos h1] at hxc
    simp only [List.mem_singleton] at hxc
    subst hxc
    refine ⟨?_, ?_, ?_, ?_, ?_⟩ <;> intro hc <;> rw [hc] at h1 <;>
      exact absurd h1 (by decide)
  · rw [if_neg h1] at hxc
    by_cases h2 : c = ' '
    · rw [if_pos h2] at hxc
      simp only [List.mem_singleton] at hxc
      subst hxc
      decide
    · rw [if_neg h2] at hxc
      obtain ⟨grp, hgrp, hxg⟩ := List.mem_flatten.mp hxc
      obtain ⟨b, hb, rfl⟩ := List.mem_map.mp hgrp
      have hb256 := utf8EncodeChar_lt c b hb
      simp only [pctEncodeByte, List.mem_cons, List.not_mem_nil, or_false] at hxg
      rcases hxg with rfl | rfl | rfl
      · decide
      · exact toHex_safeC (b / 16) (by omega)
      · exact toHex_safeC (b % 16) (by omega)

/-- A character of a joined field list is `&` or comes from a field. -/
theorem joinAmp_mem : ∀ fs : List Str, ∀ x ∈ joinAmp fs,
    x = '&' ∨ ∃ f ∈ fs, x ∈ f
  | [], x, hx => absurd hx (by rw [joinAmp]; exact List.not_mem_nil x)
  | [f], x, hx => Or.inr ⟨f, List.mem_singleton.mpr rfl, by rwa [joinAmp] at hx⟩
  | f :: g :: fs, x, hx => by
    have he : joinAmp (f :: g :: fs) = f ++ '&' :: joinAmp (g :: fs) := rfl
    rw [he] at hx
    rcases List.mem_append.mp hx with hx | hx
    · exact Or.inr ⟨f, List.mem_cons_self f _, hx⟩
    · rcases List.mem_cons.mp hx with rfl | hx
      · exact Or.inl rfl
      · rcases joinAmp_mem (g :: fs) x hx with h | ⟨f2, hf2, hxf⟩
        · exact Or.inl h
        · exact Or.inr ⟨f2, List.mem_cons_of_mem f hf2, hxf⟩

/-- `urlencode` output never contains `?`, `#` or removed whitespace. -/
theorem urlencode_safeC (l : List (Str × Str)) : ∀ x ∈ urlencode l, safeC x := by
  intro x hx
  unfold urlencode at hx
  rcases joinAmp_mem _ x hx with rfl | ⟨f, hf, hxf⟩
  · decide
  · obtain ⟨kv, _, rfl⟩ := List.mem_map.mp hf
    rcases List.mem_append.mp hxf with hxf | hxf
    · exact quote_plus_safeC _ x hxf
    · rcases List.mem_cons.mp hxf with rfl | hxf
      · decide
      · exact quote_plus_safeC _ x hxf

/-- A separator-free prefix of a string that splits at a separator can
be extended to the full separator-free part. -/
theorem append_eq_append_of_no_sep {sep : Char} : ∀ {A : Str} {B U Q : Str},
    A ++ B = U ++ sep :: Q → sep ∉ A → sep ∉ U →
    ∃ V, B = V ++ sep :: Q ∧ sep ∉ V ∧ U = A ++ V
  | [], B, U, Q, h, _, hU => ⟨U, by rw [← h]; rfl, hU, rfl⟩
  | a :: A, B, U, Q, h, hA, hU => by
    rcases U with _ | ⟨u, U⟩
    · rw [List.nil_append] at h
      rw [List.cons_append] at h
      have ha : a = sep := (List.cons.injEq _ _ _ _).mp h |>.1
      exact absurd (List.mem_cons.mpr (Or.inl ha.symm)) hA
    · rw [List.cons_append, List.cons_append] at h
      obtain ⟨hau, h2⟩ := (List.cons.injEq _ _ _ _).mp h
      obtain ⟨V, hB, hV, hUV⟩ := append_eq_append_of_no_sep h2
        (fun hm => hA (List.mem_cons_of_mem a hm))
        (fun hm => hU (List.mem_cons_of_mem u hm))
      exact ⟨V, hB, hV, by rw [hUV, hau, List.cons_append]⟩

/-- Lower-casing a scheme character yields a safe character. -/
theorem schemeChar_toLower_safeC (c : Char) (h : isSchemeChar c = true) :
    safeC (Char.toLower c) := by
  refine ⟨?_, ?_, ?_, ?_, ?_⟩ <;>
    exact toLower_ne_small c _
      (fun hc => by rw [hc] at h; exact absurd h (by decide)) (by decide)
/-- Re-parsing an unparsed result whose components consist of safe
characters and whose fragment is empty recovers an empty fragment and
exactly the given query. -/
theorem urlparse_canon (p : ParseResult) (Q : Str)
    (hs : ∀ x ∈ p.scheme, safeC x) (hn : ∀ x ∈ p.netloc, safeC x)
    (hpa : ∀ x ∈ p.path, safeC x) (hpar : ∀ x ∈ p.params, safeC x)
    (hq : ∀ x ∈ Q, safeC x) :
    (urlparse (urlunparse ⟨p.scheme, p.netloc, p.path, p.params, Q, []⟩)).fragment
        = [] ∧
      (urlparse (urlunparse ⟨p.scheme, p.netloc, p.path, p.params, Q, []⟩)).query
        = Q := by
  set q : ParseResult := ⟨p.scheme, p.netloc, p.path, p.params, Q, []⟩ with hqdef
  have h0 : ∀ x ∈ urlunparse0 q, safeC x := by
    intro x hx
    unfold urlunparse0 at hx
    split at hx
    · exact hpa x hx
    · rcases List.mem_append.mp hx with hx | hx
      · exact hpa x hx
      · rcases List.mem_cons.mp hx with rfl | hx
        · decide
        · exact hpar x hx
  have h1 : ∀ x ∈ urlunparse1 q, safeC x := by
    intro x hx
    unfold urlunparse1 at hx
    split at hx
    · rcases List.mem_cons.mp hx with rfl | hx
      · decide
      rcases List.mem_cons.mp hx with rfl | hx
      · decide
      rcases List.mem_append.mp hx with hx | hx
      · exact hn x hx
      split at hx
      · rcases List.mem_cons.mp hx with rfl | hx
        · decide
        · exact h0 x hx
      · exact h0 x hx
    · exact h0 x hx
  have h2 : ∀ x ∈ urlunparse2 q, safeC x := by
    intro x hx
    unfold urlunparse2 at hx
    split at hx
    · rcases List.mem_append.mp hx with hx | hx
      · exact hs x hx
      · rcases List.mem_cons.mp hx with rfl | hx
        · decide
        · exact h1 x hx
    · exact h1 x hx
  have hout : urlunparse q = urlunparse3 q := by
    unfold urlunparse
    exact if_neg (fun hc => hc rfl)
  have hall3 : ∀ x ∈ urlunparse3 q, safeC x ∨ x = '?' := by
    intro x hx
    unfold urlunparse3 at hx
    split at hx
    · rcases List.mem_append.mp hx with hx | hx
      · exact Or.inl (h2 x hx)
      · rcases List.mem_cons.mp hx with rfl | hx
        · exact Or.inr rfl
        · exact Or.inl (hq x hx)
    · exact Or.inl (h2 x hx)
  have hws : removeUnsafe (urlunparse3 q) = urlunparse3 q :=
    removeUnsafe_eq_self (fun x hx => by
      rcases hall3 x hx with h | rfl
      · exact ⟨h.2.2.1, h.2.2.2.1, h.2.2.2.2⟩
      · exact ⟨by decide, by decide, by decide⟩)
  have hhash : '#' ∉ urlunparse3 q := fun hm => by
    rcases hall3 _ hm with h | h
    · exact h.2.1 rfl
    · exact absurd h (by decide)
  obtain ⟨junkS, hS1, hS2⟩ := splitScheme_decomp (urlunparse3 q)
  obtain ⟨junkN, hN1, hN2⟩ := splitNetloc_decomp ((splitScheme (urlunparse3 q)).2)
  have hmem_r2 : ∀ x ∈ (splitNetloc ((splitScheme (urlunparse3 q)).2)).2,
      x ∈ urlunparse3 q := by
    intro x hx
    have m1 : x ∈ (splitScheme (urlunparse3 q)).2 := by
      rw [hN1]
      exact List.mem_append_right _ hx
    rw [hS1]
    exact List.mem_append_right _ m1
  have hhash_r2 : '#' ∉ (splitNetloc ((splitScheme (urlunparse3 q)).2)).2 :=
    fun hm => hhash (hmem_r2 _ hm)
  have h3 : splitOnFirst '#' ((splitNetloc ((splitScheme (urlunparse3 q)).2)).2) =
      ((splitNetloc ((splitScheme (urlunparse3 q)).2)).2, none) :=
    splitOnFirst_no_sep hhash_r2
  constructor
  · show ((splitOnFirst '#' (afterNetloc (urlunparse q))).2).getD [] = []
    rw [hout]
    unfold afterNetloc afterScheme
    rw [hws, h3]
    rfl
  · show ((splitOnFirst '?' (beforeFrag (urlunparse q))).2).getD [] = Q
    rw [hout]
    unfold beforeFrag afterNetloc afterScheme
    rw [hws, h3]
    dsimp only
    by_cases hQ : Q = []
    · subst hQ
      have hout3 : urlunparse3 q = urlunparse2 q := by
        unfold urlunparse3
        exact if_neg (fun hc => hc rfl)
      have hqm : '?' ∉ (splitNetloc ((splitScheme (urlunparse3 q)).2)).2 :=
        fun hm => by
          have := hmem_r2 _ hm
          rw [hout3] at this
          exact (h2 _ this).1 rfl
      rw [splitOnFirst_no_sep hqm]
      rfl
    · have hshape : urlunparse3 q = urlunparse2 q ++ '?' :: Q := by
        unfold urlunparse3
        exact if_pos (fun hc => hQ (by simpa using hc))
      have hdecomp : (junkS ++ junkN) ++
          (splitNetloc ((splitScheme (urlunparse3 q)).2)).2 =
          urlunparse2 q ++ '?' :: Q := by
        rw [List.append_assoc, ← hN1, ← hS1, hshape]
      have hA : '?' ∉ junkS ++ junkN := by
        intro hm
        rcases List.mem_append.mp hm with hm | hm
        · rcases hS2 _ hm with h | h
          · exact absurd h (by decide)
          · exact absurd h (by decide)
        · exact (hN2 _ hm).1 rfl
      have hU : '?' ∉ urlunparse2 q := fun hm => (h2 _ hm).1 rfl
      obtain ⟨V, hB, hV, _⟩ := append_eq_append_of_no_sep hdecomp hA hU
      rw [hB, splitOnFirst_append hV Q]
      rfl
/-- Every character of a parsed scheme is safe. -/
theorem urlparse_scheme_safeC (u : Str) : ∀ x ∈ (urlparse u).scheme, safeC x := by
  intro x hx
  obtain ⟨c, hc, rfl⟩ := splitScheme_fst (removeUnsafe u) x hx
  exact schemeChar_toLower_safeC c hc

/-- Every character of a parsed netloc is safe. -/
theorem urlparse_netloc_safeC (u : Str) : ∀ x ∈ (urlparse u).netloc, safeC x := by
  intro x hx
  have h := splitNetloc_fst (s := afterScheme u) x hx
  obtain ⟨junkS, hS1, _⟩ := splitScheme_decomp (removeUnsafe u)
  have hxu : x ∈ removeUnsafe u := by
    rw [hS1]
    exact List.mem_append_right _ h.1
  obtain ⟨_, hws⟩ := removeUnsafe_mem hxu
  refine ⟨?_, ?_, hws.1, hws.2.1, hws.2.2⟩
  · intro hc
    rw [hc] at h
    exact absurd h.2 (by decide)
  · intro hc
    rw [hc] at h
    exact absurd h.2 (by decide)

/-- Every character of a parsed path or params component is safe. -/
theorem urlparse_pathparams_safeC (u : Str) :
    (∀ x ∈ (urlparse u).path, safeC x) ∧ ∀ x ∈ (urlparse u).params, safeC x := by
  have hmain : ∀ x ∈ beforeQuery u, safeC x := by
    intro x hx
    obtain ⟨hx1, hneQ⟩ := @splitOnFirst_fst_prop '?' _ x hx
    obtain ⟨hx2, hneH⟩ := @splitOnFirst_fst_prop '#' _ x hx1
    obtain ⟨junkN, hN1, _⟩ := splitNetloc_decomp (afterScheme u)
    have hx3 : x ∈ afterScheme u := by
      rw [hN1]
      exact List.mem_append_right _ hx2
    obtain ⟨junkS, hS1, _⟩ := splitScheme_decomp (removeUnsafe u)
    have hx4 : x ∈ removeUnsafe u := by
      rw [hS1]
      exact List.mem_append_right _ hx3
    obtain ⟨_, hws⟩ := removeUnsafe_mem hx4
    exact ⟨hneQ, hneH, hws.1, hws.2.1, hws.2.2⟩
  exact ⟨fun x hx => hmain x (splitParams_subset.1 x hx),
    fun x hx => hmain x (splitParams_subset.2 x hx)⟩
/-- C9: for every URL, canonicalization yields a string whose re-parse
has an empty fragment and whose query parameters are exactly the
original parameters minus those named `utm_*`; in particular
`https://x/y?utm_source=a&b=1#frag` and `https://x/y?b=1` canonicalize
to the same string. -/
theorem c9_canonicalize_url (url : Str) :
    (urlparse (canonicalize_url url)).fragment = [] ∧
    parse_qsl (urlparse (canonicalize_url url)).query =
      (parse_qsl (urlparse (pyStrip url)).query).filter
        (fun kv => ¬ ("utm_".data <+: kv.1)) ∧
    canonicalize_url ("https://x/y?utm_source=a&b=1#frag".data) =
      canonicalize_url ("https://x/y?b=1".data) := by
  have hcanon : ∀ v : Str, canonicalize_url v =
      urlunparse ⟨(urlparse (pyStrip v)).scheme, (urlparse (pyStrip v)).netloc,
        (urlparse (pyStrip v)).path, (urlparse (pyStrip v)).params,
        urlencode ((parse_qsl (urlparse (pyStrip v)).query).filter
          (fun kv => ¬ ("utm_".data <+: kv.1))), []⟩ := fun v => rfl
  obtain ⟨hfrag, hquery⟩ := urlparse_canon (urlparse (pyStrip url))
    (urlencode ((parse_qsl (urlparse (pyStrip url)).query).filter
      (fun kv => ¬ ("utm_".data <+: kv.1))))
    (urlparse_scheme_safeC _) (urlparse_netloc_safeC _)
    (urlparse_pathparams_safeC _).1 (urlparse_pathparams_safeC _).2
    (urlencode_safeC _)
  refine ⟨by rw [hcanon]; exact hfrag,
    by rw [hcanon, hquery]; exact parse_qsl_urlencode _, ?_⟩
  have e_b1 : parse_qsl "b=1".data = [("b".data, "1".data)] := by
    unfold parse_qsl
    rw [show splitOnAll '&' "b=1".data = ["b=1".data] from by decide]
    rw [show (["b=1".data].filter (fun f => ¬ f.isEmpty)) = ["b=1".data] from by
      decide]
    rw [List.map_cons, List.map_nil]
    dsimp only
    rw [show splitOnFirst '=' "b=1".data = ("b".data, some "1".data) from by decide]
    dsimp only
    rw [unquote_plus_id _ (by decide) (by decide),
      unquote_plus_id _ (by decide) (by decide)]
  have e_utm : parse_qsl "utm_source=a&b=1".data =
      [("utm_source".data, "a".data), ("b".data, "1".data)] := by
    have hsplit : "utm_source=a&b=1".data =
        "utm_source=a".data ++ '&' :: "b=1".data := by decide
    rw [hsplit, parse_qsl_field_cons _ _ (by decide) (by decide), e_b1]
    rw [show splitOnFirst '=' "utm_source=a".data =
      ("utm_source".data, some "a".data) from by decide]
    dsimp only
    rw [unquote_plus_id _ (by decide) (by decide),
      unquote_plus_id _ (by decide) (by decide)]
  rw [hcanon ("https://x/y?utm_source=a&b=1#frag".data),
    hcanon ("https://x/y?b=1".data)]
  rw [show urlparse (pyStrip "https://x/y?utm_source=a&b=1#frag".data) =
    (⟨"https".data, "x".data, "/y".data, [], "utm_source=a&b=1".data,
      "frag".data⟩ : ParseResult) from by decide]
  rw [show urlparse (pyStrip "https://x/y?b=1".data) =
    (⟨"https".data, "x".data, "/y".data, [], "b=1".data, []⟩ : ParseResult)
    from by decide]
  dsimp only
  rw [e_utm, e_b1]
  rw [show ([("utm_source".data, "a".data), ("b".data, "1".data)].filter
    (fun kv : Str × Str => ¬ ("utm_".data <+: kv.1))) = [("b".data, "1".data)]
    from by decide]
  rw [show ([("b".data, "1".data)].filter
    (fun kv : Str × Str => ¬ ("utm_".data <+: kv.1))) = [("b".data, "1".data)]
    from by decide]

/-- Witness for C9 at the empty URL. -/
theorem c9_witness :
    (urlparse (canonicalize_url [])).fragment = [] ∧
    parse_qsl (urlparse (canonicalize_url [])).query =
      (parse_qsl (urlparse (pyStrip [])).query).filter
        (fun kv => ¬ ("utm_".data <+: kv.1)) ∧
    canonicalize_url ("https://x/y?utm_source=a&b=1#frag".data) =
      canonicalize_url ("https://x/y?b=1".data) :=
  c9_canonicalize_url []
end NodeseekBot
